import Mathlib

/-
Verification of the imt-rs Indexed Merkle Tree (IMT).

The development shallowly embeds the Rust sources under src/src/circuits/:
byte strings ([u8; 32] keys, values and hashes) are lists of naturals, and
the hasher capability (trait Hashor, used through a factory of fresh
hashers) is an abstract function digest : List Nat -> List Nat applied to
the concatenation of all absorbed byte strings.  The engine (imt.rs) only
compiles at H = Keccak, so the hard-coded Keccak in Imt::refresh_tree and
the factory denote the same digest function.  Rust panics (assert!,
expect, unreachable!) are modelled as Option.none results.
-/

namespace ImtRs

/-- Byte strings: hashes, keys and values are lists of byte values. -/
abbrev Hash := List Nat

abbrev Key := List Nat

abbrev Value := List Nat

/-- Lexicographic strict order on byte slices, as produced by the Rust
derived Ord on slices of u8 (a strict prefix is smaller). -/
def bytesLt : List Nat → List Nat → Bool
  | [], [] => false
  | [], _ :: _ => true
  | _ :: _, [] => false
  | a :: as, b :: bs => if a < b then true else if b < a then false else bytesLt as bs

/-- Default key of the [u8; 32] instantiation: thirty-two zero bytes. -/
def zeroKey : Key := List.replicate 32 0

/-- Default value of the [u8; 32] instantiation: thirty-two zero bytes. -/
def zeroValue : Value := List.replicate 32 0

/-- IMTNode from src/src/circuits/node.rs. -/
structure IMTNode where
  index : Nat
  key : Key
  value : Value
  next_key : Key
deriving DecidableEq, Repr

/-- IMTNode::hash: digest of key, value and next_key; index is
intentionally not hashed. -/
def IMTNode.hash (digest : List Nat → List Nat) (n : IMTNode) : Hash :=
  digest (n.key ++ n.value ++ n.next_key)

/-- IMTNode::is_ln_of from node.rs: self.key < node_key and
(self.next_key > node_key or self.next_key equals the default key). -/
def IMTNode.is_ln_of (n : IMTNode) (node_key : Key) : Bool :=
  bytesLt n.key node_key && (bytesLt node_key n.next_key || n.next_key == zeroKey)

/-- Big-endian bytes of a u64, as u64::to_be_bytes. -/
def u64be (n : Nat) : List Nat :=
  [n / 2 ^ 56 % 256, n / 2 ^ 48 % 256, n / 2 ^ 40 % 256, n / 2 ^ 32 % 256,
   n / 2 ^ 24 % 256, n / 2 ^ 16 % 256, n / 2 ^ 8 % 256, n % 256]

/-- Big-endian value of a byte list (for stating what u64be encodes). -/
def beBytesVal (bs : List Nat) : Nat :=
  bs.foldl (fun acc b => acc * 256 + b) 0

/-- Hash of one Merkle level in imt_root and Imt::refresh_tree: a fresh
hasher absorbs the present children in left-right order (the accumulator
h is the left child exactly when the index is even) and is finalized. -/
def absorbPair (digest : List Nat → List Nat) (even : Bool) (h : Hash) (sib : Option Hash) : Hash :=
  match sib with
  | none => digest h
  | some s => if even then digest (h ++ s) else digest (s ++ h)

/-- Loop of imt_root from src/src/circuits/mod.rs: climb the siblings,
pairing by index parity and halving the index at each level. -/
def imtClimb (digest : List Nat → List Nat) : List (Option Hash) → Nat → Hash → Hash
  | [], _, h => h
  | sib :: rest, index, h =>
      imtClimb digest rest (index / 2) (absorbPair digest (index % 2 == 0) h sib)

/-- imt_root from src/src/circuits/mod.rs: climb from the leaf hash, then
bind the size as eight big-endian bytes into the final digest. -/
def imt_root (digest : List Nat → List Nat) (size : Nat) (node : IMTNode)
    (siblings : List (Option Hash)) : Hash :=
  digest (imtClimb digest siblings node.index (node.hash digest) ++ u64be size)

/-- Climb of imt_root with the panic of the source kept explicit: the
match in mod.rs has an unreachable! arm for the all-absent child pair,
modelled here as none.  Theorem c9_imt_root_total proves the arm is dead
for every input, justifying the total imtClimb above. -/
def imtClimbPanic (digest : List Nat → List Nat) : List (Option Hash) → Nat → Hash → Option Hash
  | [], _, h => some h
  | sib :: rest, index, h =>
      match (if index % 2 == 0 then ((some h : Option Hash), sib) else (sib, some h)) with
      | (none, none) => none
      | (none, some r) => imtClimbPanic digest rest (index / 2) (digest r)
      | (some l, none) => imtClimbPanic digest rest (index / 2) (digest l)
      | (some l, some r) => imtClimbPanic digest rest (index / 2) (digest (l ++ r))

/-- imt_root with the unreachable! arm modelled as a panic (none). -/
def imt_rootPanic (digest : List Nat → List Nat) (size : Nat) (node : IMTNode)
    (siblings : List (Option Hash)) : Option Hash :=
  (imtClimbPanic digest siblings node.index (node.hash digest)).map
    (fun h => digest (h ++ u64be size))

/-- node_exists from src/src/circuits/mod.rs. -/
def node_exists (digest : List Nat → List Nat) (root : Hash) (size : Nat) (node : IMTNode)
    (siblings : List (Option Hash)) : Bool :=
  root == imt_root digest size node siblings

/-- Verifier error kinds of section 7 of the spec; in the source each is a
distinct anyhow message string (insert.rs) or assert message (update.rs). -/
inductive IMTError where
  | StaleOldRoot
  | InvalidLn
  | InconsistentSiblings
  | NodeNotInTree
deriving DecidableEq, Repr

/-- IMTInsert witness from src/src/circuits/insert.rs. -/
structure IMTInsert where
  old_root : Hash
  old_size : Nat
  ln_node : IMTNode
  ln_siblings : List (Option Hash)
  node : IMTNode
  node_siblings : List (Option Hash)
  updated_ln_siblings : List (Option Hash)
deriving DecidableEq, Repr

/-- IMTInsert::is_valid_ln. -/
def IMTInsert.is_valid_ln (digest : List Nat → List Nat) (w : IMTInsert) : Bool :=
  w.ln_node.is_ln_of w.node.key &&
    node_exists digest w.old_root w.old_size w.ln_node w.ln_siblings

/-- IMTInsert::verify from insert.rs. -/
def IMTInsert.verify (digest : List Nat → List Nat) (w : IMTInsert) (old_root : Hash) :
    Except IMTError Hash :=
  if old_root = w.old_root then
    if w.is_valid_ln digest then
      let updated_ln : IMTNode := { w.ln_node with next_key := w.node.key }
      let new_size := w.old_size + 1
      let root_from_node := imt_root digest new_size w.node w.node_siblings
      let root_from_updated_ln := imt_root digest new_size updated_ln w.updated_ln_siblings
      if root_from_node = root_from_updated_ln then Except.ok root_from_node
      else Except.error IMTError.InconsistentSiblings
    else Except.error IMTError.InvalidLn
  else Except.error IMTError.StaleOldRoot

/-- IMTUpdate witness from src/src/circuits/update.rs. -/
structure IMTUpdate where
  old_root : Hash
  size : Nat
  node : IMTNode
  node_siblings : List (Option Hash)
  new_value : Value
deriving DecidableEq, Repr

/-- IMTUpdate::apply from update.rs, which checks the stale root and the
node membership with assert! and therefore panics (none) instead of
returning a typed error. -/
def IMTUpdate.apply (digest : List Nat → List Nat) (w : IMTUpdate) (old_root : Hash) :
    Option Hash :=
  if old_root = w.old_root then
    if node_exists digest w.old_root w.size w.node w.node_siblings then
      some (imt_root digest w.size { w.node with value := w.new_value } w.node_siblings)
    else none
  else none

/-- Modelled from the spec: IMTUpdate::verify is invoked by
IMTMutate::verify (src/src/circuits/mutate.rs line 65) but is not defined
anywhere under src (update.rs only has the panicking apply above).  The
definition follows section 4.6 of the spec: StaleOldRoot on a mismatched
expected root, NodeNotInTree when the node and siblings do not
reconstruct the old root, and otherwise the root of the value-updated
node. -/
def IMTUpdate.verify (digest : List Nat → List Nat) (w : IMTUpdate) (old_root : Hash) :
    Except IMTError Hash :=
  if old_root = w.old_root then
    if node_exists digest w.old_root w.size w.node w.node_siblings then
      Except.ok (imt_root digest w.size { w.node with value := w.new_value } w.node_siblings)
    else Except.error IMTError.NodeNotInTree
  else Except.error IMTError.StaleOldRoot

/-- IMTMutate from src/src/circuits/mutate.rs. -/
inductive IMTMutate where
  | Insert (w : IMTInsert)
  | Update (w : IMTUpdate)
deriving DecidableEq, Repr

/-- IMTMutate::verify from mutate.rs: dispatch to the variant verifier. -/
def IMTMutate.verify (digest : List Nat → List Nat) (m : IMTMutate) (old_root : Hash) :
    Except IMTError Hash :=
  match m with
  | IMTMutate.Insert w => w.verify digest old_root
  | IMTMutate.Update w => w.verify digest old_root

/-- Imt engine state from src/src/circuits/imt.rs.  The node HashMap is an
insertion-ordered list of nodes (keys stay unique by construction) and
the per-level hash cache is a function from level and index to an
optional hash. -/
structure Imt where
  root : Hash
  size : Nat
  depth : Nat
  nodes : List IMTNode
  hashes : Nat → Nat → Option Hash

/-- Insertion of one entry into the hash cache. -/
def cacheInsert (cache : Nat → Nat → Option Hash) (level index : Nat) (h : Hash) :
    Nat → Nat → Option Hash :=
  fun l i => if l = level ∧ i = index then some h else cache l i

/-- Sibling index at one level: flip the lowest bit of the index. -/
def sibIdx (index : Nat) : Nat :=
  if index % 2 == 0 then index + 1 else index - 1

/-- Loop of Imt::refresh_tree: climb togo levels starting at a given
level, reading cached siblings, recording them, recombining the running
hash by parity (the unreachable! arm of the source is dead because the
running hash is always present, exactly as in imtClimb) and caching each
recombined hash one level up at the halved index. -/
def refreshLoop (digest : List Nat → List Nat) (cache : Nat → Nat → Option Hash)
    (level togo index : Nat) (h : Hash) :
    (Nat → Nat → Option Hash) × List (Option Hash) × Hash :=
  match togo with
  | 0 => (cache, [], h)
  | t + 1 =>
      let sibling_hash := cache level (sibIdx index)
      let h2 := absorbPair digest (index % 2 == 0) h sibling_hash
      let cache2 := cacheInsert cache (level + 1) (index / 2) h2
      let res := refreshLoop digest cache2 (level + 1) t (index / 2) h2
      (res.1, sibling_hash :: res.2.1, res.2.2)

/-- Imt::refresh_tree from imt.rs: recompute and cache the leaf hash of
the named node, climb the tree refreshing the cached ancestor hashes,
then bind the size into the new root.  The source hard-codes Keccak for
the final binding; with H = Keccak (the only instantiation that
compiles) it coincides with the factory digest used here.  The expect on
the node lookup is modelled as none. -/
def Imt.refresh_tree (digest : List Nat → List Nat) (t : Imt) (node_key : Key) :
    Option (Imt × List (Option Hash)) :=
  match t.nodes.find? (fun n => n.key == node_key) with
  | none => none
  | some node =>
      let h := node.hash digest
      let cache0 := cacheInsert t.hashes 0 node.index h
      let res := refreshLoop digest cache0 0 t.depth node.index h
      some ({ t with hashes := res.1, root := digest (res.2.2 ++ u64be t.size) }, res.2.1)

/-- Loop of Imt::siblings: read the cached sibling hash at each level. -/
def siblingsLoop (cache : Nat → Nat → Option Hash) : Nat → Nat → Nat → List (Option Hash)
  | 0, _, _ => []
  | t + 1, level, index => cache level (sibIdx index) :: siblingsLoop cache t (level + 1) (index / 2)

/-- Imt::siblings from imt.rs; the expect on the lookup is none. -/
def Imt.siblings (t : Imt) (node_key : Key) : Option (List (Option Hash)) :=
  match t.nodes.find? (fun n => n.key == node_key) with
  | none => none
  | some node => some (siblingsLoop t.hashes t.depth 0 node.index)

/-- Imt::low_nullifier from imt.rs: scan the stored nodes for one whose
is_ln_of holds; the expect on failure is none. -/
def Imt.low_nullifier (t : Imt) (node_key : Key) : Option IMTNode :=
  t.nodes.find? (fun n => n.is_ln_of node_key)

/-- Fuelled base-two logarithm; with enough fuel it agrees with
Nat.log2 (theorem imtLog2_eq) while staying structurally recursive, so
that concrete engine runs evaluate. -/
def log2Go : Nat → Nat → Nat
  | 0, _ => 0
  | fuel + 1, n => if 2 ≤ n then log2Go fuel (n / 2) + 1 else 0

/-- Position of the most significant bit of a positive number, the
u64::BITS - leading_zeros - 1 computation of Imt::refresh_depth. -/
def imtLog2 (n : Nat) : Nat :=
  log2Go n n

/-- Imt::refresh_depth from imt.rs: with b the position of the most
significant bit of size (u64::BITS - leading_zeros - 1, which is the
base-two logarithm), depth becomes b when size is exactly two to the b
and b + 1 otherwise. -/
def Imt.refresh_depth (t : Imt) : Imt :=
  let depth := imtLog2 t.size
  { t with depth := if t.size == 2 ^ depth then depth else depth + 1 }

/-- In-place mutation performed by insert_node through nodes.get_mut: the
node carrying the low-nullifier key gets the freshly inserted key as its
next_key. -/
def updNext (k : Key) (lnKey : Key) (n : IMTNode) : IMTNode :=
  if n.key == lnKey then { n with next_key := k } else n

/-- In-place mutation performed by update_node through nodes.get_mut: the
node carrying the key gets the new value. -/
def updValue (v : Value) (k : Key) (n : IMTNode) : IMTNode :=
  if n.key == k then { n with value := v } else n

/-- Imt::insert_node from imt.rs.  The assert on a key conflict, the
expect inside low_nullifier and the expects of the helper calls are all
modelled as none. -/
def Imt.insert_node (digest : List Nat → List Nat) (t : Imt) (key : Key) (value : Value) :
    Option (Imt × IMTInsert) :=
  if t.nodes.any (fun n => n.key == key) then none
  else
    match t.low_nullifier key with
    | none => none
    | some ln_node =>
        match t.siblings ln_node.key with
        | none => none
        | some ln_siblings =>
            let t1 : Imt := { t with nodes := t.nodes.map (updNext key ln_node.key) }
            match t1.refresh_tree digest ln_node.key with
            | none => none
            | some (t2, _) =>
                let t3 : Imt := { t2 with size := t2.size + 1 }
                let t4 := t3.refresh_depth
                let node : IMTNode :=
                  { index := t.size, key := key, value := value, next_key := ln_node.next_key }
                let t5 : Imt := { t4 with nodes := t4.nodes ++ [node] }
                match t5.refresh_tree digest key with
                | none => none
                | some (t6, node_siblings) =>
                    match t6.siblings ln_node.key with
                    | none => none
                    | some updated_ln_siblings =>
                        some (t6,
                          { old_root := t.root, old_size := t.size, ln_node := ln_node,
                            ln_siblings := ln_siblings, node := node,
                            node_siblings := node_siblings,
                            updated_ln_siblings := updated_ln_siblings })

/-- Imt::update_node from imt.rs: snapshot the node, write the new value,
refresh the tree and return the update witness carrying the pre-mutation
node.  The expect on a missing key is none. -/
def Imt.update_node (digest : List Nat → List Nat) (t : Imt) (key : Key) (value : Value) :
    Option (Imt × IMTUpdate) :=
  match t.nodes.find? (fun n => n.key == key) with
  | none => none
  | some old_node =>
      let t1 : Imt := { t with nodes := t.nodes.map (updValue value key) }
      match t1.refresh_tree digest key with
      | none => none
      | some (t2, node_siblings) =>
          some (t2, { old_root := t.root, size := t2.size, node := old_node,
                      node_siblings := node_siblings, new_value := value })

/-- Initial node created by Imt::new: index 0, default key, value and
next_key. -/
def initNode : IMTNode :=
  { index := 0, key := zeroKey, value := zeroValue, next_key := zeroKey }

/-- Imt::new from imt.rs: a state with the zero node only, size 1, depth
0, refreshed once.  The refresh cannot fail since the zero node was just
inserted; the dead arm returns the unrefreshed state. -/
def Imt.new (digest : List Nat → List Nat) : Imt :=
  let t1 : Imt := { root := List.replicate 32 0, size := 1, depth := 0,
                    nodes := [initNode], hashes := fun _ _ => none }
  match t1.refresh_tree digest zeroKey with
  | some (t2, _) => t2
  | none => t1

/-- Combination of two optional child hashes, as performed by the level
step of imt_root and Imt::refresh_tree read off the true subtree
contents: absent children are skipped, never zero-filled. -/
def combineH (digest : List Nat → List Nat) : Option Hash → Option Hash → Option Hash
  | none, none => none
  | none, some r => some (digest r)
  | some l, none => some (digest l)
  | some l, some r => some (digest (l ++ r))

/-- Specification-level hash of the subtree of height l rooted at index i,
for a given assignment of optional leaf hashes. -/
def subHash (digest : List Nat → List Nat) (leaf : Nat → Option Hash) : Nat → Nat → Option Hash
  | 0, i => leaf i
  | l + 1, i => combineH digest (subHash digest leaf l (2 * i)) (subHash digest leaf l (2 * i + 1))

/-- Leaf-hash assignment induced by a node list: the hash of the node
stored at a given index, if any. -/
def leafF (digest : List Nat → List Nat) (ns : List IMTNode) (i : Nat) : Option Hash :=
  (ns.find? (fun n => n.index == i)).map (fun n => n.hash digest)

/-- Specification-level sibling vector along the path climbing togo
levels from the given level and index. -/
def specSibs (digest : List Nat → List Nat) (leaf : Nat → Option Hash) :
    Nat → Nat → Nat → List (Option Hash)
  | 0, _, _ => []
  | t + 1, level, index =>
      subHash digest leaf level (sibIdx index) :: specSibs digest leaf t (level + 1) (index / 2)

/-- Specification-level sibling vector of the leaf at the given index in
a tree of the given depth. -/
def specSiblings (digest : List Nat → List Nat) (ns : List IMTNode) (depth index : Nat) :
    List (Option Hash) :=
  specSibs digest (leafF digest ns) depth 0 index

/-- Keys of a node list. -/
def keysOf (ns : List IMTNode) : List Key :=
  ns.map (fun n => n.key)

/-- Linked-list successor property of one node: its next_key is the
least stored key strictly greater than its own key, or the zero key when
no stored key is greater. -/
def nextOk (ns : List IMTNode) (n : IMTNode) : Prop :=
  (n.next_key = zeroKey ∧ ∀ m ∈ ns, bytesLt n.key m.key = false) ∨
  (bytesLt n.key n.next_key = true ∧ n.next_key ∈ keysOf ns ∧
    ∀ m ∈ ns, bytesLt n.key m.key = true → bytesLt m.key n.next_key = false)

/-- Linked-list invariant of the stored nodes: the zero key is present,
no key is below the zero key, and every node satisfies nextOk. -/
def LLInv (ns : List IMTNode) : Prop :=
  zeroKey ∈ keysOf ns ∧ (∀ n ∈ ns, bytesLt n.key zeroKey = false) ∧ ∀ n ∈ ns, nextOk ns n

instance (ns : List IMTNode) (n : IMTNode) : Decidable (nextOk ns n) := by
  unfold nextOk
  infer_instance

instance (ns : List IMTNode) : Decidable (LLInv ns) := by
  unfold LLInv
  infer_instance

/-- Depth computed by Imt::refresh_depth as a function of the size. -/
def depthFor (size : Nat) : Nat :=
  if size == 2 ^ imtLog2 size then imtLog2 size else imtLog2 size + 1

/-- Engine invariant tying the state of Imt to its specification view:
indices are contiguous in insertion order, keys are unique, the depth is
the one refresh_depth computes, the hash cache agrees with the true
subtree hashes up to the depth and is empty above it, the root binds the
top hash with the size, and the linked list is well formed. -/
structure Inv (digest : List Nat → List Nat) (t : Imt) : Prop where
  idx_eq : t.nodes.map (fun n => n.index) = List.range t.size
  keys_nodup : (keysOf t.nodes).Nodup
  depth_eq : t.depth = depthFor t.size
  size_pos : 1 ≤ t.size
  cache_ok : ∀ l i, l ≤ t.depth → t.hashes l i = subHash digest (leafF digest t.nodes) l i
  cache_none : ∀ l i, t.depth < l → t.hashes l i = none
  root_top : ∃ top, subHash digest (leafF digest t.nodes) t.depth 0 = some top ∧
      t.root = digest (top ++ u64be t.size)
  ll : LLInv t.nodes

/-- Insertion into a list sorted by key. -/
def insertSorted (n : IMTNode) : List IMTNode → List IMTNode
  | [] => [n]
  | m :: rest => if bytesLt n.key m.key then n :: m :: rest else m :: insertSorted n rest

/-- Insertion sort of nodes by ascending key. -/
def sortByKey (ns : List IMTNode) : List IMTNode :=
  ns.foldr insertSorted []

/-- Chain property of a key-sorted node list: each next_key is the key of
the following node and the last next_key is the zero key. -/
def chainOk : List IMTNode → Bool
  | [] => true
  | [n] => n.next_key == zeroKey
  | n :: m :: rest => n.next_key == m.key && chainOk (m :: rest)

/-- Client-visible mutation requests driving the engine. -/
inductive MutReq where
  | ins (key : Key) (value : Value)
  | upd (key : Key) (value : Value)

/-- Application of one mutation request to the engine, returning the new
state and the emitted witness. -/
def Imt.applyReq (digest : List Nat → List Nat) (t : Imt) : MutReq → Option (Imt × IMTMutate)
  | MutReq.ins k v =>
      match t.insert_node digest k v with
      | none => none
      | some (t2, w) => some (t2, IMTMutate.Insert w)
  | MutReq.upd k v =>
      match t.update_node digest k v with
      | none => none
      | some (t2, w) => some (t2, IMTMutate.Update w)

/-- Run of a request list against the engine, collecting for every
mutation the root before it, the emitted witness and the root after it. -/
def Imt.runTrace (digest : List Nat → List Nat) (t : Imt) :
    List MutReq → Option (List (Hash × IMTMutate × Hash))
  | [] => some []
  | r :: rs =>
      match t.applyReq digest r with
      | none => none
      | some (t2, m) =>
          match t2.runTrace digest rs with
          | none => none
          | some tr => some ((t.root, m, t2.root) :: tr)

/-- Round-trip check of one trace entry: the witness verified against the
root before the mutation returns exactly the root after it. -/
def checkTriple (digest : List Nat → List Nat) (tr : Hash × IMTMutate × Hash) : Bool :=
  match IMTMutate.verify digest tr.2.1 tr.1 with
  | Except.ok r => r == tr.2.2
  | Except.error _ => false

/-- Run of a list of inserts against the engine, keeping the final state. -/
def Imt.runInserts (digest : List Nat → List Nat) (t : Imt) :
    List (Key × Value) → Option Imt
  | [] => some t
  | kv :: rest =>
      match t.insert_node digest kv.1 kv.2 with
      | none => none
      | some (t2, _) => t2.runInserts digest rest

/-- Root computation written from the words of section 4.3 of the spec,
as a left fold over the sibling vector: at each level the present
children are absorbed in left-right order (h is left exactly when the
index is even, absence skips the input), the index is halved, and the
accumulated hash is finally absorbed together with the size as eight
big-endian bytes. -/
def specLevelAbsorb (h : Hash) (sib : Option Hash) (hIsLeft : Bool) : List Nat :=
  match sib with
  | none => h
  | some s => if hIsLeft then h ++ s else s ++ h

/-- Root algorithm of section 4.3 of the spec, to be compared with
imt_root translated from the source. -/
def specRootAlg (digest : List Nat → List Nat) (size : Nat) (node : IMTNode)
    (siblings : List (Option Hash)) : Hash :=
  let res := siblings.foldl
    (fun (st : Hash × Nat) sib => (digest (specLevelAbsorb st.1 sib (st.2 % 2 == 0)), st.2 / 2))
    (node.hash digest, node.index)
  digest (res.1 ++ u64be size)

/-- Concrete digest function used by the evaluation witnesses. -/
def dig0 : List Nat → List Nat :=
  fun l => [l.length % 256, (l.foldl (fun a b => a + b) 0) % 256]

/-- Concrete 32-byte key ending in 1 used by the evaluation witnesses. -/
def key1 : Key := List.replicate 31 0 ++ [1]

/-- Concrete 32-byte key ending in 2 used by the evaluation witnesses. -/
def key2 : Key := List.replicate 31 0 ++ [2]

/-- Concrete value used by the evaluation witnesses. -/
def val1 : Value := List.replicate 32 7

/-- Sample insert witness used by the evaluation witnesses. -/
def wIns0 : IMTInsert :=
  { old_root := [1, 2], old_size := 1,
    ln_node := initNode, ln_siblings := [],
    node := { index := 1, key := key1, value := val1, next_key := zeroKey },
    node_siblings := [none], updated_ln_siblings := [none] }

/-- Sample update witness used by the evaluation witnesses. -/
def wUpd0 : IMTUpdate :=
  { old_root := [3, 4], size := 2,
    node := { index := 1, key := key1, value := val1, next_key := zeroKey },
    node_siblings := [none], new_value := List.replicate 32 9 }

/-- Empty hash cache. -/
def emptyCache : Nat → Nat → Option Hash :=
  fun _ _ => none

/-- Sample two-node engine state satisfying the linked-list invariant,
used by the evaluation witnesses (the cache and root fields are not
involved in the low_nullifier claims). -/
def sampleTree : Imt :=
  { root := [0], size := 2, depth := 1,
    nodes := [{ initNode with next_key := key1 },
              { index := 1, key := key1, value := val1, next_key := zeroKey }],
    hashes := emptyCache }

/-- Sample node used by the evaluation witnesses. -/
def nodeA : IMTNode := { index := 0, key := key1, value := val1, next_key := key2 }

/-- Sample node equal to nodeA except for its index. -/
def nodeB : IMTNode := { index := 5, key := key1, value := val1, next_key := key2 }

/-- Concrete value of nine-bytes used by the evaluation witnesses. -/
def val9 : Value := List.replicate 32 9

/-- Concrete request list driving the engine in the C1 witness: insert
key1, update it, then insert key2 (growing the depth to 2). -/
def reqs0 : List MutReq :=
  [MutReq.ins key1 val1, MutReq.upd key1 val9, MutReq.ins key2 val1]

/-- Trace produced by running reqs0 from a fresh tree under dig0. -/
def trace0 : List (Hash × IMTMutate × Hash) :=
  [([10, 97],
    IMTMutate.Insert
      { old_root := [10, 97], old_size := 1,
        ln_node := { index := 0, key := zeroKey, value := zeroValue, next_key := zeroKey },
        ln_siblings := [],
        node := { index := 1, key := key1, value := val1, next_key := zeroKey },
        node_siblings := [some [96, 1]], updated_ln_siblings := [some [96, 225]] },
    [10, 168]),
   ([10, 168],
    IMTMutate.Update
      { old_root := [10, 168], size := 2,
        node := { index := 1, key := key1, value := val1, next_key := zeroKey },
        node_siblings := [some [96, 1]], new_value := val9 },
    [10, 232]),
   ([10, 232],
    IMTMutate.Insert
      { old_root := [10, 232], old_size := 2,
        ln_node := { index := 1, key := key1, value := val9, next_key := zeroKey },
        ln_siblings := [some [96, 1]],
        node := { index := 2, key := key2, value := val1, next_key := zeroKey },
        node_siblings := [none, some [4, 228]],
        updated_ln_siblings := [some [96, 1], some [2, 66]] },
    [10, 51])]

def kvsC5 : List (Key × Value) := [(key2, val1), (key1, val1)]

def tC5 : Imt :=
  ((Imt.new dig0).runInserts dig0 kvsC5).getD (Imt.new dig0)

def tC5a : Imt :=
  match (Imt.new dig0).insert_node dig0 key2 val1 with
  | some p => p.1
  | none => Imt.new dig0

def wC5a : IMTInsert :=
  match (Imt.new dig0).insert_node dig0 key2 val1 with
  | some p => p.2
  | none => { old_root := [], old_size := 0, ln_node := initNode, ln_siblings := [],
              node := initNode, node_siblings := [], updated_ln_siblings := [] }

def tC7 : Imt :=
  match tC5a.insert_node dig0 key1 val1 with
  | some p => p.1
  | none => tC5a

def wC7 : IMTInsert :=
  match tC5a.insert_node dig0 key1 val1 with
  | some p => p.2
  | none => { old_root := [], old_size := 0, ln_node := initNode, ln_siblings := [],
              node := initNode, node_siblings := [], updated_ln_siblings := [] }


theorem imtClimbPanic_eq (digest : List Nat → List Nat) :
    ∀ (sibs : List (Option Hash)) (index : Nat) (h : Hash),
    imtClimbPanic digest sibs index h = some (imtClimb digest sibs index h)
  | [], _, _ => rfl
  | sib :: rest, index, h => by
      cases hp : (index % 2 == 0) <;> cases sib <;>
        simp [imtClimbPanic, imtClimb, absorbPair, hp, imtClimbPanic_eq digest rest]

/-- C9: the root computation is total and never panics.  The version of
imt_root keeping the unreachable! arm of the source as an explicit panic
returns some root on every input (any node, any size, any sibling vector
with absent entries anywhere), because the hash climbing up from the
leaf is always present, so the all-absent child combination is dead code
for every input. -/
theorem c9_imt_root_total (digest : List Nat → List Nat) (size : Nat) (node : IMTNode)
    (siblings : List (Option Hash)) :
    imt_rootPanic digest size node siblings = some (imt_root digest size node siblings) := by
  simp [imt_rootPanic, imt_root, imtClimbPanic_eq]

/-- C6: the leaf hash of a node is the digest of key, value and next_key
concatenated in that order, and any two nodes agreeing on those three
fields have the same leaf hash whatever their indices are. -/
theorem c6_leaf_hash_ignores_index (digest : List Nat → List Nat) (n m : IMTNode)
    (hk : n.key = m.key) (hv : n.value = m.value) (hn : n.next_key = m.next_key) :
    n.hash digest = digest (n.key ++ n.value ++ n.next_key) ∧ n.hash digest = m.hash digest := by
  refine ⟨rfl, ?_⟩
  simp [IMTNode.hash, hk, hv, hn]

/-- C6 witness: two concrete nodes with distinct indices and identical
remaining fields hash identically. -/
theorem c6_leaf_hash_ignores_index_witness :
    nodeA.index ≠ nodeB.index ∧ nodeA.hash dig0 = nodeB.hash dig0 :=
  ⟨by decide, (c6_leaf_hash_ignores_index dig0 nodeA nodeB rfl rfl rfl).2⟩

/-- C3: the update verifier in the source (IMTUpdate::apply) panics via
assert instead of returning an error value.  At a concrete update
witness whose stored old root is [3, 4], asking for verification against
the different expected root [9, 9] makes apply abort (modelled none),
while the Result-returning verifier that IMTMutate::verify calls (and
which the source does not define) would return the StaleOldRoot error. -/
theorem c3_update_apply_panics_on_stale :
    IMTUpdate.apply dig0 wUpd0 [9, 9] = none ∧
      IMTUpdate.verify dig0 wUpd0 [9, 9] = Except.error IMTError.StaleOldRoot := by
  exact ⟨rfl, rfl⟩

theorem absorbPair_spec (digest : List Nat → List Nat) (e : Bool) (h : Hash) (sib : Option Hash) :
    digest (specLevelAbsorb h sib e) = absorbPair digest e h sib := by
  cases sib <;> cases e <;> rfl

theorem imtClimb_eq_foldl (digest : List Nat → List Nat) :
    ∀ (sibs : List (Option Hash)) (index : Nat) (h : Hash),
    (sibs.foldl
      (fun (st : Hash × Nat) sib => (digest (specLevelAbsorb st.1 sib (st.2 % 2 == 0)), st.2 / 2))
      (h, index)).1 = imtClimb digest sibs index h
  | [], _, _ => rfl
  | sib :: rest, index, h => by
      rw [List.foldl_cons]
      dsimp only
      rw [absorbPair_spec digest (index % 2 == 0) h sib]
      simp only [imtClimb]
      exact imtClimb_eq_foldl digest rest (index / 2) (absorbPair digest (index % 2 == 0) h sib)

/-- C4: imt_root follows the algorithm of section 4.3 of the spec: climb
the sibling vector pairing by index parity with present children
absorbed in left-right order and absent ones skipped, halving the index
at each level, and finally bind the accumulated hash with the size
encoded as eight big-endian bytes, which is what u64be produces. -/
theorem c4_root_algorithm (digest : List Nat → List Nat) (size : Nat) (node : IMTNode)
    (siblings : List (Option Hash)) :
    imt_root digest size node siblings = specRootAlg digest size node siblings ∧
      (u64be size).length = 8 ∧ beBytesVal (u64be size) = size % 2 ^ 64 := by
  refine ⟨?_, rfl, ?_⟩
  · simp [imt_root, specRootAlg, imtClimb_eq_foldl]
  · simp [u64be, beBytesVal, List.foldl]
    omega

/-- C8: a fresh tree holds exactly the zero node (index 0, default key,
value and next_key), has size 1 and depth 0, and its root is the digest
of the zero-node leaf hash (the digest of ninety-six zero bytes)
followed by the size one as eight big-endian bytes. -/
theorem c8_fresh_tree (digest : List Nat → List Nat) :
    (Imt.new digest).size = 1 ∧ (Imt.new digest).depth = 0 ∧
      (Imt.new digest).nodes = [initNode] ∧
      (Imt.new digest).root = digest (digest (List.replicate 96 0) ++ [0, 0, 0, 0, 0, 0, 0, 1]) := by
  exact ⟨rfl, rfl, rfl, rfl⟩

/-- C2: the insert verifier checks in order: a mismatched expected old
root gives StaleOldRoot; then a low nullifier that fails is_ln_of
against the new key or whose recomputed old root (from ln_node,
ln_siblings and old_size) differs from the stored old root gives
InvalidLn; then, with new_size the successor of old_size and the updated
low nullifier carrying the new key as next_key, disagreeing roots
recomputed from the node and from the updated low nullifier give
InconsistentSiblings; otherwise the root recomputed from the node is
returned. -/
theorem c2_insert_verify_cases (digest : List Nat → List Nat) (w : IMTInsert) (exp : Hash) :
    (exp ≠ w.old_root → w.verify digest exp = Except.error IMTError.StaleOldRoot)
    ∧ (exp = w.old_root →
        ¬ (w.ln_node.is_ln_of w.node.key = true ∧
            imt_root digest w.old_size w.ln_node w.ln_siblings = w.old_root) →
        w.verify digest exp = Except.error IMTError.InvalidLn)
    ∧ (exp = w.old_root → w.ln_node.is_ln_of w.node.key = true →
        imt_root digest w.old_size w.ln_node w.ln_siblings = w.old_root →
        imt_root digest (w.old_size + 1) w.node w.node_siblings ≠
          imt_root digest (w.old_size + 1) { w.ln_node with next_key := w.node.key }
            w.updated_ln_siblings →
        w.verify digest exp = Except.error IMTError.InconsistentSiblings)
    ∧ (exp = w.old_root → w.ln_node.is_ln_of w.node.key = true →
        imt_root digest w.old_size w.ln_node w.ln_siblings = w.old_root →
        imt_root digest (w.old_size + 1) w.node w.node_siblings =
          imt_root digest (w.old_size + 1) { w.ln_node with next_key := w.node.key }
            w.updated_ln_siblings →
        w.verify digest exp =
          Except.ok (imt_root digest (w.old_size + 1) w.node w.node_siblings)) := by
  refine ⟨?_, ?_, ?_, ?_⟩
  · intro h
    simp [IMTInsert.verify, h]
  · intro h hno
    have hv : w.is_valid_ln digest = false := by
      rw [IMTInsert.is_valid_ln]
      simp only [node_exists, Bool.and_eq_false_iff]
      rcases Bool.eq_false_or_eq_true (w.ln_node.is_ln_of w.node.key) with ht | hf
      · refine Or.inr ?_
        simp only [beq_eq_false_iff_ne, ne_eq]
        intro hroot
        exact hno ⟨ht, hroot.symm⟩
      · exact Or.inl hf
    simp [IMTInsert.verify, h, hv]
  · intro h hln hex hne
    have hv : w.is_valid_ln digest = true := by
      simp [IMTInsert.is_valid_ln, node_exists, hln, hex]
    simp [IMTInsert.verify, h, hv, hne]
  · intro h hln hex heq
    have hv : w.is_valid_ln digest = true := by
      simp [IMTInsert.is_valid_ln, node_exists, hln, hex]
    simp [IMTInsert.verify, h, hv, heq]

/-- C2 witness: at a concrete insert witness and a concrete mismatched
expected root, the verifier reports StaleOldRoot. -/
theorem c2_insert_verify_cases_witness :
    ([9, 9] : Hash) ≠ wIns0.old_root ∧
      IMTInsert.verify dig0 wIns0 [9, 9] = Except.error IMTError.StaleOldRoot :=
  ⟨by decide, (c2_insert_verify_cases dig0 wIns0 [9, 9]).1 (by decide)⟩

theorem bytesLt_irrefl : ∀ a : List Nat, bytesLt a a = false
  | [] => rfl
  | a :: as => by simp [bytesLt, bytesLt_irrefl as]

theorem bytesLt_asymm : ∀ a b : List Nat, bytesLt a b = true → bytesLt b a = false
  | [], [], h => by simp [bytesLt] at h
  | [], _ :: _, _ => rfl
  | _ :: _, [], h => by simp [bytesLt] at h
  | a :: as, b :: bs, h => by
      by_cases h1 : a < b
      · simp [bytesLt, h1, Nat.lt_asymm h1, Nat.not_lt_of_lt h1]
      · by_cases h2 : b < a
        · simp [bytesLt, h1, h2] at h
        · have hab : a = b := by omega
          subst hab
          simp [bytesLt] at h ⊢
          exact bytesLt_asymm as bs h

theorem bytesLt_trans : ∀ a b c : List Nat,
    bytesLt a b = true → bytesLt b c = true → bytesLt a c = true
  | [], [], [], h1, _ => by simp [bytesLt] at h1
  | [], _ :: _, [], _, h2 => by simp [bytesLt] at h2
  | [], _, _ :: _, _, _ => rfl
  | _ :: _, [], _, h1, _ => by simp [bytesLt] at h1
  | _ :: _, _ :: _, [], _, h2 => by simp [bytesLt] at h2
  | a :: as, b :: bs, c :: cs, h1, h2 => by
      simp only [bytesLt] at h1 h2 ⊢
      by_cases hab : a < b
      · have hac : a < c := by
          by_cases hbc : b < c
          · omega
          · by_cases hcb : c < b
            · simp [hbc, hcb] at h2
            · omega
        simp [hac]
      · by_cases hba : b < a
        · simp [hab, hba] at h1
        · have : a = b := by omega
          subst this
          by_cases hbc : a < c
          · simp [hbc]
          · by_cases hcb : c < a
            · simp [hbc, hcb] at h2
            · simp [hab, hba] at h1
              simp [hbc, hcb] at h2 ⊢
              exact bytesLt_trans as bs cs h1 h2

theorem bytesLt_trichotomy : ∀ a b : List Nat,
    bytesLt a b = true ∨ bytesLt b a = true ∨ a = b
  | [], [] => Or.inr (Or.inr rfl)
  | [], _ :: _ => Or.inl rfl
  | _ :: _, [] => Or.inr (Or.inl rfl)
  | a :: as, b :: bs => by
      by_cases h1 : a < b
      · exact Or.inl (by simp [bytesLt, h1])
      · by_cases h2 : b < a
        · exact Or.inr (Or.inl (by simp [bytesLt, h2, h1]))
        · have hab : a = b := by omega
          subst hab
          rcases bytesLt_trichotomy as bs with h | h | h
          · exact Or.inl (by simp [bytesLt, h])
          · exact Or.inr (Or.inl (by simp [bytesLt, h]))
          · exact Or.inr (Or.inr (by rw [h]))

theorem not_bytesLt_replicate_zero : ∀ (ks : List Nat),
    bytesLt ks (List.replicate ks.length 0) = false
  | [] => rfl
  | k :: ks => by
      simp only [List.length_cons, List.replicate_succ, bytesLt]
      by_cases hk : 0 < k
      · simp [Nat.not_lt_zero, hk]
      · have : k = 0 := by omega
        subst this
        simp [not_bytesLt_replicate_zero ks]

theorem find?_eq_of_nodup {β : Type} [BEq β] [LawfulBEq β] (f : IMTNode → β) :
    ∀ (ns : List IMTNode) (n : IMTNode), (ns.map f).Nodup → n ∈ ns →
      ns.find? (fun x => f x == f n) = some n
  | [], n, _, hm => absurd hm (List.not_mem_nil n)
  | m :: rest, n, hnd, hm => by
      have hnd2 : (∀ x ∈ rest, ¬ f x = f m) ∧ (rest.map f).Nodup := by simpa using hnd
      rcases List.mem_cons.mp hm with he | ht
      · subst he
        simp [List.find?]
      · have hne : (f m == f n) = false := by
          refine beq_eq_false_iff_ne.mpr ?_
          intro he
          exact hnd2.1 n ht he.symm
        rw [List.find?_cons_of_neg _ (by simp [hne])]
        exact find?_eq_of_nodup f rest n hnd2.2 ht

theorem find?_key_eq (ns : List IMTNode) (n : IMTNode) (hnd : (keysOf ns).Nodup)
    (hm : n ∈ ns) : ns.find? (fun x => x.key == n.key) = some n :=
  find?_eq_of_nodup (fun x => x.key) ns n (by simpa [keysOf] using hnd) hm

theorem find?_index_eq (ns : List IMTNode) (n : IMTNode)
    (hnd : (ns.map (fun x => x.index)).Nodup) (hm : n ∈ ns) :
    ns.find? (fun x => x.index == n.index) = some n :=
  find?_eq_of_nodup (fun x => x.index) ns n hnd hm

theorem leafF_of_mem (digest : List Nat → List Nat) (ns : List IMTNode) (n : IMTNode)
    (hnd : (ns.map (fun x => x.index)).Nodup) (hm : n ∈ ns) :
    leafF digest ns n.index = some (n.hash digest) := by
  simp [leafF, find?_index_eq ns n hnd hm]

theorem leafF_none (digest : List Nat → List Nat) (ns : List IMTNode) (i : Nat)
    (h : ∀ n ∈ ns, n.index ≠ i) : leafF digest ns i = none := by
  have : ns.find? (fun n => n.index == i) = none := by
    rw [List.find?_eq_none]
    intro x hx
    simp [h x hx]
  simp [leafF, this]

theorem subHash_congr (d : List Nat → List Nat) (leaf1 leaf2 : Nat → Option Hash) :
    ∀ (l i : Nat), (∀ j, i * 2 ^ l ≤ j → j < (i + 1) * 2 ^ l → leaf1 j = leaf2 j) →
      subHash d leaf1 l i = subHash d leaf2 l i
  | 0, i, h => by simpa [subHash] using h i (by simp) (by simp)
  | l + 1, i, h => by
      have h1 : ∀ j, 2 * i * 2 ^ l ≤ j → j < (2 * i + 1) * 2 ^ l → leaf1 j = leaf2 j := by
        intro j hj1 hj2
        refine h j ?_ ?_
        · have he : i * 2 ^ (l + 1) = 2 * i * 2 ^ l := by ring
          omega
        · have he : (i + 1) * 2 ^ (l + 1) = (2 * i + 2) * 2 ^ l := by ring
          have hle : (2 * i + 1) * 2 ^ l ≤ (2 * i + 2) * 2 ^ l :=
            Nat.mul_le_mul_right _ (by omega)
          omega
      have h2 : ∀ j, (2 * i + 1) * 2 ^ l ≤ j → j < (2 * i + 1 + 1) * 2 ^ l → leaf1 j = leaf2 j := by
        intro j hj1 hj2
        refine h j ?_ ?_
        · have he : i * 2 ^ (l + 1) = 2 * i * 2 ^ l := by ring
          have hle : 2 * i * 2 ^ l ≤ (2 * i + 1) * 2 ^ l :=
            Nat.mul_le_mul_right _ (by omega)
          omega
        · have he : (i + 1) * 2 ^ (l + 1) = (2 * i + 1 + 1) * 2 ^ l := by ring
          omega
      simp [subHash, subHash_congr d leaf1 leaf2 l (2 * i) h1,
        subHash_congr d leaf1 leaf2 l (2 * i + 1) h2]

theorem subHash_none (d : List Nat → List Nat) (leaf : Nat → Option Hash) :
    ∀ (l i : Nat), (∀ j, i * 2 ^ l ≤ j → j < (i + 1) * 2 ^ l → leaf j = none) →
      subHash d leaf l i = none
  | 0, i, h => by simpa [subHash] using h i (by simp) (by simp)
  | l + 1, i, h => by
      have h1 : ∀ j, 2 * i * 2 ^ l ≤ j → j < (2 * i + 1) * 2 ^ l → leaf j = none := by
        intro j hj1 hj2
        refine h j ?_ ?_
        · have he : i * 2 ^ (l + 1) = 2 * i * 2 ^ l := by ring
          omega
        · have he : (i + 1) * 2 ^ (l + 1) = (2 * i + 2) * 2 ^ l := by ring
          have hle : (2 * i + 1) * 2 ^ l ≤ (2 * i + 2) * 2 ^ l :=
            Nat.mul_le_mul_right _ (by omega)
          omega
      have h2 : ∀ j, (2 * i + 1) * 2 ^ l ≤ j → j < (2 * i + 1 + 1) * 2 ^ l → leaf j = none := by
        intro j hj1 hj2
        refine h j ?_ ?_
        · have he : i * 2 ^ (l + 1) = 2 * i * 2 ^ l := by ring
          have hle : 2 * i * 2 ^ l ≤ (2 * i + 1) * 2 ^ l :=
            Nat.mul_le_mul_right _ (by omega)
          omega
        · have he : (i + 1) * 2 ^ (l + 1) = (2 * i + 1 + 1) * 2 ^ l := by ring
          omega
      simp [subHash, subHash_none d leaf l (2 * i) h1,
        subHash_none d leaf l (2 * i + 1) h2, combineH]

theorem subHash_up (d : List Nat → List Nat) (leaf : Nat → Option Hash) (l i : Nat) (x : Hash)
    (hx : subHash d leaf l i = some x) :
    subHash d leaf (l + 1) (i / 2) =
      some (absorbPair d (i % 2 == 0) x (subHash d leaf l (sibIdx i))) := by
  by_cases hp : i % 2 = 0
  · have hb : (i % 2 == 0) = true := by simp [hp]
    have h2 : 2 * (i / 2) = i := by omega
    have h3 : 2 * (i / 2) + 1 = sibIdx i := by
      simp [sibIdx, hb]
      omega
    rw [subHash, h3, h2, hx]
    cases hsib : subHash d leaf l (sibIdx i) <;> simp [combineH, absorbPair, hb]
  · have hb : (i % 2 == 0) = false := by simp [hp]
    have h3 : 2 * (i / 2) + 1 = i := by omega
    have h2 : 2 * (i / 2) = sibIdx i := by
      simp [sibIdx, hb]
      omega
    rw [subHash, h3, h2, hx]
    cases hsib : subHash d leaf l (sibIdx i) <;> simp [combineH, absorbPair, hb]

theorem sibIdx_ne (i : Nat) : sibIdx i ≠ i := by
  by_cases hp : i % 2 = 0
  · simp [sibIdx, hp]
  · simp [sibIdx, hp]
    omega

theorem div2_pow (i j : Nat) : i / 2 / 2 ^ j = i / 2 ^ (j + 1) := by
  rw [Nat.div_div_eq_div_mul]
  congr 1
  ring

theorem cacheInsert_self (cache : Nat → Nat → Option Hash) (level index : Nat) (h : Hash) :
    cacheInsert cache level index h level index = some h := by
  simp [cacheInsert]

theorem refreshLoop_spec (d : List Nat → List Nat) (leaf : Nat → Option Hash) :
    ∀ (togo level index : Nat) (h : Hash) (cache : Nat → Nat → Option Hash),
    subHash d leaf level index = some h →
    (∀ j, j < togo → cache (level + j) (sibIdx (index / 2 ^ j)) =
      subHash d leaf (level + j) (sibIdx (index / 2 ^ j))) →
    (refreshLoop d cache level togo index h).2.1 = specSibs d leaf togo level index ∧
    subHash d leaf (level + togo) (index / 2 ^ togo) =
      some (refreshLoop d cache level togo index h).2.2 ∧
    (∀ l i, (∀ j, 1 ≤ j → j ≤ togo → ¬ (l = level + j ∧ i = index / 2 ^ j)) →
      (refreshLoop d cache level togo index h).1 l i = cache l i) ∧
    (∀ j, 1 ≤ j → j ≤ togo →
      (refreshLoop d cache level togo index h).1 (level + j) (index / 2 ^ j) =
        subHash d leaf (level + j) (index / 2 ^ j)) := by
  intro togo
  induction togo with
  | zero =>
      intro level index h cache hstart hsib
      refine ⟨rfl, ?_, fun l i _ => rfl, fun j hj1 hj2 => by omega⟩
      simpa using hstart
  | succ T ih =>
      intro level index h cache hstart hsib
      have hsib0 : cache level (sibIdx index) = subHash d leaf level (sibIdx index) := by
        have := hsib 0 (by omega)
        simpa using this
      have hstart2 : subHash d leaf (level + 1) (index / 2) =
          some (absorbPair d (index % 2 == 0) h (cache level (sibIdx index))) := by
        rw [hsib0]
        exact subHash_up d leaf level index h hstart
      have hsib2 : ∀ j, j < T →
          cacheInsert cache (level + 1) (index / 2)
              (absorbPair d (index % 2 == 0) h (cache level (sibIdx index)))
              (level + 1 + j) (sibIdx (index / 2 / 2 ^ j)) =
            subHash d leaf (level + 1 + j) (sibIdx (index / 2 / 2 ^ j)) := by
        intro j hj
        rw [div2_pow]
        have hoff : ¬ (level + 1 + j = level + 1 ∧ sibIdx (index / 2 ^ (j + 1)) = index / 2) := by
          rcases Nat.eq_zero_or_pos j with hj0 | hjp
          · subst hj0
            rintro ⟨-, hcontra⟩
            rw [pow_one] at hcontra
            exact sibIdx_ne _ hcontra
          · rintro ⟨hl, -⟩
            omega
        rw [cacheInsert, if_neg hoff]
        have := hsib (j + 1) (by omega)
        rw [show level + (j + 1) = level + 1 + j by omega] at this
        exact this
      obtain ⟨ihs, iht, ihoff, ihon⟩ :=
        ih (level + 1) (index / 2)
          (absorbPair d (index % 2 == 0) h (cache level (sibIdx index)))
          (cacheInsert cache (level + 1) (index / 2)
            (absorbPair d (index % 2 == 0) h (cache level (sibIdx index))))
          hstart2 hsib2
      have hunfold : refreshLoop d cache level (T + 1) index h =
          ((refreshLoop d
              (cacheInsert cache (level + 1) (index / 2)
                (absorbPair d (index % 2 == 0) h (cache level (sibIdx index))))
              (level + 1) T (index / 2)
              (absorbPair d (index % 2 == 0) h (cache level (sibIdx index)))).1,
            cache level (sibIdx index) ::
              (refreshLoop d
                (cacheInsert cache (level + 1) (index / 2)
                  (absorbPair d (index % 2 == 0) h (cache level (sibIdx index))))
                (level + 1) T (index / 2)
                (absorbPair d (index % 2 == 0) h (cache level (sibIdx index)))).2.1,
            (refreshLoop d
              (cacheInsert cache (level + 1) (index / 2)
                (absorbPair d (index % 2 == 0) h (cache level (sibIdx index))))
              (level + 1) T (index / 2)
              (absorbPair d (index % 2 == 0) h (cache level (sibIdx index)))).2.2) := rfl
      rw [hunfold]
      refine ⟨?_, ?_, ?_, ?_⟩
      · simp only [specSibs]
        rw [ihs, hsib0]
      · rw [show level + (T + 1) = level + 1 + T by omega, ← div2_pow]
        exact iht
      · intro l i hcond
        have hstep : (refreshLoop d
            (cacheInsert cache (level + 1) (index / 2)
              (absorbPair d (index % 2 == 0) h (cache level (sibIdx index))))
            (level + 1) T (index / 2)
            (absorbPair d (index % 2 == 0) h (cache level (sibIdx index)))).1 l i =
            cacheInsert cache (level + 1) (index / 2)
              (absorbPair d (index % 2 == 0) h (cache level (sibIdx index))) l i := by
          refine ihoff l i ?_
          intro j hj1 hj2
          rw [div2_pow]
          have := hcond (j + 1) (by omega) (by omega)
          rw [show level + (j + 1) = level + 1 + j by omega] at this
          exact this
        rw [hstep]
        have hne : ¬ (l = level + 1 ∧ i = index / 2) := by
          have := hcond 1 (by omega) (by omega)
          rw [pow_one] at this
          exact this
        rw [cacheInsert, if_neg hne]
      · intro j hj1 hj2
        rcases Nat.lt_or_ge j 2 with hj | hj
        · have hj1eq : j = 1 := by omega
          subst hj1eq
          have hstep : (refreshLoop d
              (cacheInsert cache (level + 1) (index / 2)
                (absorbPair d (index % 2 == 0) h (cache level (sibIdx index))))
              (level + 1) T (index / 2)
              (absorbPair d (index % 2 == 0) h (cache level (sibIdx index)))).1
                (level + 1) (index / 2) =
              cacheInsert cache (level + 1) (index / 2)
                (absorbPair d (index % 2 == 0) h (cache level (sibIdx index)))
                (level + 1) (index / 2) := by
            refine ihoff (level + 1) (index / 2) ?_
            rintro j' hj'1 hj'2 ⟨hl, -⟩
            omega
          rw [pow_one, hstep, cacheInsert_self, ← hstart2]
        · obtain ⟨J, hJ⟩ : ∃ J, j = J + 2 := ⟨j - 2, by omega⟩
          subst hJ
          have := ihon (J + 1) (by omega) (by omega)
          rw [div2_pow] at this
          rw [show level + (J + 2) = level + 1 + (J + 1) by omega]
          exact this

theorem refresh_tree_spec (d : List Nat → List Nat) (t : Imt) (k : Key) (n : IMTNode)
    (hfind : t.nodes.find? (fun x => x.key == k) = some n)
    (hleaf : leafF d t.nodes n.index = some (n.hash d))
    (hoff : ∀ l i, l ≤ t.depth → i ≠ n.index / 2 ^ l →
      t.hashes l i = subHash d (leafF d t.nodes) l i) :
    ∃ t2 sibs, t.refresh_tree d k = some (t2, sibs) ∧
      t2.nodes = t.nodes ∧ t2.size = t.size ∧ t2.depth = t.depth ∧
      sibs = specSiblings d t.nodes t.depth n.index ∧
      (∀ l i, l ≤ t.depth → t2.hashes l i = subHash d (leafF d t.nodes) l i) ∧
      (∀ l i, t.depth < l → t2.hashes l i = t.hashes l i) ∧
      ∃ top, subHash d (leafF d t.nodes) t.depth (n.index / 2 ^ t.depth) = some top ∧
        t2.root = d (top ++ u64be t.size) := by
  have hstart : subHash d (leafF d t.nodes) 0 n.index = some (n.hash d) := hleaf
  have hsib : ∀ j, j < t.depth →
      cacheInsert t.hashes 0 n.index (n.hash d) (0 + j) (sibIdx (n.index / 2 ^ j)) =
        subHash d (leafF d t.nodes) (0 + j) (sibIdx (n.index / 2 ^ j)) := by
    intro j hj
    have hne : ¬ (0 + j = 0 ∧ sibIdx (n.index / 2 ^ j) = n.index) := by
      rcases Nat.eq_zero_or_pos j with hj0 | hjp
      · subst hj0
        rintro ⟨-, hcontra⟩
        simp only [pow_zero, Nat.div_one] at hcontra
        exact sibIdx_ne _ hcontra
      · rintro ⟨hl, -⟩
        omega
    rw [cacheInsert, if_neg hne]
    exact hoff (0 + j) (sibIdx (n.index / 2 ^ j)) (by omega)
      (by simpa using sibIdx_ne (n.index / 2 ^ j))
  obtain ⟨hs, ht, hoffr, honr⟩ :=
    refreshLoop_spec d (leafF d t.nodes) t.depth 0 n.index (n.hash d)
      (cacheInsert t.hashes 0 n.index (n.hash d)) hstart hsib
  refine ⟨{ t with
      hashes := (refreshLoop d (cacheInsert t.hashes 0 n.index (n.hash d)) 0 t.depth
        n.index (n.hash d)).1,
      root := d ((refreshLoop d (cacheInsert t.hashes 0 n.index (n.hash d)) 0 t.depth
        n.index (n.hash d)).2.2 ++ u64be t.size) },
    (refreshLoop d (cacheInsert t.hashes 0 n.index (n.hash d)) 0 t.depth
        n.index (n.hash d)).2.1, ?_, rfl, rfl, rfl, ?_, ?_, ?_, ?_⟩
  · rw [Imt.refresh_tree, hfind]
  · rw [hs]
    rfl
  · intro l i hl
    by_cases hpath : i = n.index / 2 ^ l
    · subst hpath
      rcases Nat.eq_zero_or_pos l with hl0 | hlp
      · subst hl0
        have hcell : (refreshLoop d (cacheInsert t.hashes 0 n.index (n.hash d)) 0 t.depth
            n.index (n.hash d)).1 0 (n.index / 2 ^ 0) =
            cacheInsert t.hashes 0 n.index (n.hash d) 0 (n.index / 2 ^ 0) := by
          refine hoffr 0 (n.index / 2 ^ 0) ?_
          rintro j hj1 hj2 ⟨hl, -⟩
          omega
        show (refreshLoop d (cacheInsert t.hashes 0 n.index (n.hash d)) 0 t.depth
            n.index (n.hash d)).1 0 (n.index / 2 ^ 0) =
          subHash d (leafF d t.nodes) 0 (n.index / 2 ^ 0)
        rw [hcell]
        simp only [pow_zero, Nat.div_one]
        rw [cacheInsert_self]
        exact hstart.symm
      · have := honr l (by omega) hl
        simpa using this
    · have hcell : (refreshLoop d (cacheInsert t.hashes 0 n.index (n.hash d)) 0 t.depth
          n.index (n.hash d)).1 l i =
          cacheInsert t.hashes 0 n.index (n.hash d) l i := by
        refine hoffr l i ?_
        rintro j hj1 hj2 ⟨hle, hie⟩
        subst hle
        simp only [Nat.zero_add] at hpath
        exact hpath hie
      show (refreshLoop d (cacheInsert t.hashes 0 n.index (n.hash d)) 0 t.depth
          n.index (n.hash d)).1 l i = subHash d (leafF d t.nodes) l i
      rw [hcell]
      have hne : ¬ (l = 0 ∧ i = n.index) := by
        rintro ⟨hl0, hi0⟩
        subst hl0
        exact hpath (by simpa using hi0)
      rw [cacheInsert, if_neg hne]
      exact hoff l i hl hpath
  · intro l i hl
    have hcell : (refreshLoop d (cacheInsert t.hashes 0 n.index (n.hash d)) 0 t.depth
        n.index (n.hash d)).1 l i =
        cacheInsert t.hashes 0 n.index (n.hash d) l i := by
      refine hoffr l i ?_
      rintro j hj1 hj2 ⟨hle, -⟩
      omega
    show (refreshLoop d (cacheInsert t.hashes 0 n.index (n.hash d)) 0 t.depth
        n.index (n.hash d)).1 l i = t.hashes l i
    rw [hcell]
    have hne : ¬ (l = 0 ∧ i = n.index) := by
      rintro ⟨hl0, -⟩
      omega
    rw [cacheInsert, if_neg hne]
  · refine ⟨_, by simpa using ht, rfl⟩

theorem siblingsLoop_spec (d : List Nat → List Nat) (leaf : Nat → Option Hash) :
    ∀ (togo level index : Nat) (cache : Nat → Nat → Option Hash),
    (∀ j, j < togo → cache (level + j) (sibIdx (index / 2 ^ j)) =
      subHash d leaf (level + j) (sibIdx (index / 2 ^ j))) →
    siblingsLoop cache togo level index = specSibs d leaf togo level index
  | 0, _, _, _, _ => rfl
  | T + 1, level, index, cache, hsib => by
      have h0 : cache level (sibIdx index) = subHash d leaf level (sibIdx index) := by
        simpa using hsib 0 (by omega)
      have hrec : ∀ j, j < T → cache (level + 1 + j) (sibIdx (index / 2 / 2 ^ j)) =
          subHash d leaf (level + 1 + j) (sibIdx (index / 2 / 2 ^ j)) := by
        intro j hj
        rw [div2_pow]
        have := hsib (j + 1) (by omega)
        rw [show level + (j + 1) = level + 1 + j by omega] at this
        exact this
      simp only [siblingsLoop, specSibs]
      rw [h0, siblingsLoop_spec d leaf T (level + 1) (index / 2) cache hrec]

theorem imtClimb_sub (d : List Nat → List Nat) (leaf : Nat → Option Hash) :
    ∀ (togo level index : Nat) (h : Hash),
    subHash d leaf level index = some h →
    subHash d leaf (level + togo) (index / 2 ^ togo) =
      some (imtClimb d (specSibs d leaf togo level index) index h)
  | 0, level, index, h, hstart => by simpa using hstart
  | T + 1, level, index, h, hstart => by
      have hstep := subHash_up d leaf level index h hstart
      have := imtClimb_sub d leaf T (level + 1) (index / 2)
        (absorbPair d (index % 2 == 0) h (subHash d leaf level (sibIdx index))) hstep
      rw [show level + 1 + T = level + (T + 1) by omega, div2_pow] at this
      simpa [specSibs, imtClimb] using this

theorem log2Go_eq (f : Nat) : ∀ n, n ≤ f → log2Go f n = Nat.log2 n := by
  induction f with
  | zero =>
      intro n hn
      have hn0 : n = 0 := by omega
      subst hn0
      rw [log2Go, Nat.log2_eq_log_two, Nat.log_zero_right]
  | succ f ih =>
      intro n hn
      rw [log2Go]
      by_cases h2 : 2 ≤ n
      · rw [if_pos h2, ih (n / 2) (by omega)]
        rw [Nat.log2_eq_log_two, Nat.log2_eq_log_two,
          Nat.log_of_one_lt_of_le (by omega) h2]
      · rw [if_neg h2]
        have hcase : n = 0 ∨ n = 1 := by omega
        rcases hcase with h0 | h1
        · rw [h0, Nat.log2_eq_log_two, Nat.log_zero_right]
        · rw [h1, Nat.log2_eq_log_two, Nat.log_one_right]

theorem imtLog2_eq (n : Nat) : imtLog2 n = Nat.log2 n :=
  log2Go_eq n n (le_refl n)

theorem size_le_pow_depthFor (n : Nat) (_hn : 1 ≤ n) : n ≤ 2 ^ depthFor n := by
  rw [depthFor, imtLog2_eq]
  by_cases hpow : n = 2 ^ Nat.log2 n
  · have hb : (n == 2 ^ Nat.log2 n) = true := by simpa using hpow
    rw [hb, if_pos rfl]
    exact le_of_eq hpow
  · have hb : (n == 2 ^ Nat.log2 n) = false := by simpa using hpow
    rw [hb]
    simp only [Bool.false_eq_true, if_false]
    have hlt := Nat.lt_pow_succ_log_self (b := 2) (by norm_num) n
    rw [Nat.log2_eq_log_two]
    omega

theorem depthFor_min (n d : Nat) (hn : 1 ≤ n) (hd : n ≤ 2 ^ d) : depthFor n ≤ d := by
  rw [depthFor, imtLog2_eq]
  by_cases hpow : n = 2 ^ Nat.log2 n
  · have hb : (n == 2 ^ Nat.log2 n) = true := by simpa using hpow
    rw [hb, if_pos rfl]
    have h1 : 2 ^ Nat.log2 n ≤ 2 ^ d := hpow ▸ hd
    exact (Nat.pow_le_pow_iff_right (by norm_num)).mp h1
  · have hb : (n == 2 ^ Nat.log2 n) = false := by simpa using hpow
    rw [hb]
    simp only [Bool.false_eq_true, if_false]
    by_contra hcon
    have hdle : d ≤ Nat.log2 n := by omega
    have h1 : 2 ^ d ≤ 2 ^ Nat.log2 n := Nat.pow_le_pow_right (by norm_num) hdle
    have h2 : 2 ^ Nat.log2 n ≤ n := by
      rw [Nat.log2_eq_log_two]
      exact Nat.pow_log_le_self 2 (by omega)
    exact hpow (by omega)

theorem depthFor_lt_of_not_pow (n : Nat) (hn : 1 ≤ n) (hnp : ∀ j, n ≠ 2 ^ j) :
    n < 2 ^ depthFor n := by
  have h1 := size_le_pow_depthFor n hn
  have h2 := hnp (depthFor n)
  omega

theorem inv_index_nodup (d : List Nat → List Nat) (t : Imt) (hI : Inv d t) :
    (t.nodes.map (fun x => x.index)).Nodup := by
  rw [hI.idx_eq]
  exact List.nodup_range _

theorem inv_index_lt (d : List Nat → List Nat) (t : Imt) (hI : Inv d t) (n : IMTNode)
    (hm : n ∈ t.nodes) : n.index < t.size := by
  have h1 : n.index ∈ t.nodes.map (fun x => x.index) := List.mem_map_of_mem _ hm
  rw [hI.idx_eq] at h1
  simpa using h1

theorem inv_size_le (d : List Nat → List Nat) (t : Imt) (hI : Inv d t) :
    t.size ≤ 2 ^ t.depth := by
  rw [hI.depth_eq]
  exact size_le_pow_depthFor t.size hI.size_pos

theorem inv_div_depth (d : List Nat → List Nat) (t : Imt) (hI : Inv d t) (n : IMTNode)
    (hm : n ∈ t.nodes) : n.index / 2 ^ t.depth = 0 :=
  Nat.div_eq_of_lt (lt_of_lt_of_le (inv_index_lt d t hI n hm) (inv_size_le d t hI))

theorem inv_siblings (d : List Nat → List Nat) (t : Imt) (hI : Inv d t) (n : IMTNode)
    (hm : n ∈ t.nodes) :
    t.siblings n.key = some (specSiblings d t.nodes t.depth n.index) := by
  rw [Imt.siblings, find?_key_eq t.nodes n hI.keys_nodup hm]
  show some (siblingsLoop t.hashes t.depth 0 n.index) =
    some (specSiblings d t.nodes t.depth n.index)
  refine congrArg some ?_
  refine siblingsLoop_spec d (leafF d t.nodes) t.depth 0 n.index t.hashes ?_
  intro j hj
  exact hI.cache_ok (0 + j) (sibIdx (n.index / 2 ^ j)) (by omega)

theorem inv_imt_root (d : List Nat → List Nat) (t : Imt) (hI : Inv d t) (n : IMTNode)
    (hm : n ∈ t.nodes) :
    imt_root d t.size n (specSiblings d t.nodes t.depth n.index) = t.root := by
  obtain ⟨top, htop, hroot⟩ := hI.root_top
  have hleaf : subHash d (leafF d t.nodes) 0 n.index = some (n.hash d) :=
    leafF_of_mem d t.nodes n (inv_index_nodup d t hI) hm
  have hclimb := imtClimb_sub d (leafF d t.nodes) t.depth 0 n.index (n.hash d) hleaf
  rw [inv_div_depth d t hI n hm] at hclimb
  simp only [Nat.zero_add] at hclimb
  rw [htop] at hclimb
  rw [imt_root, hroot]
  have : top = imtClimb d (specSibs d (leafF d t.nodes) t.depth 0 n.index) n.index (n.hash d) :=
    Option.some_injective _ hclimb
  rw [this]
  rfl

theorem is_ln_of_iff (n : IMTNode) (k : Key) : n.is_ln_of k = true ↔
    bytesLt n.key k = true ∧ (bytesLt k n.next_key = true ∨ n.next_key = zeroKey) := by
  simp [IMTNode.is_ln_of]

theorem mem_keysOf (ns : List IMTNode) (k : Key) :
    k ∈ keysOf ns ↔ ∃ n ∈ ns, n.key = k := by
  simp [keysOf]

theorem next_of_gt (ns : List IMTNode) (hL1 : ∀ m ∈ ns, bytesLt m.key zeroKey = false)
    (n : IMTNode) (hn : n ∈ ns) (hnx : nextOk ns n) (m : IMTNode) (hm : m ∈ ns)
    (hgt : bytesLt n.key m.key = true) :
    bytesLt n.key n.next_key = true ∧ n.next_key ∈ keysOf ns ∧
      (∀ p ∈ ns, bytesLt n.key p.key = true → bytesLt p.key n.next_key = false) ∧
      n.next_key ≠ zeroKey := by
  rcases hnx with ⟨-, hmax⟩ | ⟨h1, h2, h3⟩
  · rw [hmax m hm] at hgt
    cases hgt
  · refine ⟨h1, h2, h3, ?_⟩
    intro hz
    rw [hz] at h1
    rw [hL1 n hn] at h1
    cases h1

theorem exists_max_below (k : Key) : ∀ (ns : List IMTNode),
    (∃ n ∈ ns, bytesLt n.key k = true) →
    ∃ p ∈ ns, bytesLt p.key k = true ∧
      ∀ m ∈ ns, bytesLt m.key k = true → bytesLt p.key m.key = false
  | [], hex => absurd hex (by simp)
  | n :: rest, hex => by
      by_cases hr : ∃ m ∈ rest, bytesLt m.key k = true
      · obtain ⟨p, hp, hpk, hpmax⟩ := exists_max_below k rest hr
        by_cases hn : bytesLt n.key k = true
        · by_cases hpn : bytesLt p.key n.key = true
          · refine ⟨n, by simp, hn, ?_⟩
            intro m hm hmk
            rcases List.mem_cons.mp hm with he | ht
            · rw [he]
              exact bytesLt_irrefl n.key
            · rcases Bool.eq_false_or_eq_true (bytesLt n.key m.key) with hc | hc
              · have := bytesLt_trans p.key n.key m.key hpn hc
                rw [hpmax m ht hmk] at this
                cases this
              · exact hc
          · refine ⟨p, by simp [hp], hpk, ?_⟩
            intro m hm hmk
            rcases List.mem_cons.mp hm with he | ht
            · rw [he]
              exact Bool.eq_false_iff.mpr (fun hc => hpn (by simpa using hc))
            · exact hpmax m ht hmk
        · refine ⟨p, by simp [hp], hpk, ?_⟩
          intro m hm hmk
          rcases List.mem_cons.mp hm with he | ht
          · rw [he] at hmk
            exact absurd hmk hn
          · exact hpmax m ht hmk
      · refine ⟨n, by simp, ?_, ?_⟩
        · obtain ⟨m, hm, hmk⟩ := hex
          rcases List.mem_cons.mp hm with he | ht
          · rw [← he]
            exact hmk
          · exact absurd ⟨m, ht, hmk⟩ hr
        · intro m hm hmk
          rcases List.mem_cons.mp hm with he | ht
          · rw [he]
            exact bytesLt_irrefl n.key
          · exact absurd ⟨m, ht, hmk⟩ hr

/-- C10: on a tree satisfying the linked-list invariant, low_nullifier
panics (none) when the candidate key is already stored or is the zero
key, because no stored node can satisfy is_ln_of; and for a 32-byte
non-zero key that is not stored it returns a node n with n.is_ln_of k,
that is a node with n.key below k whose next_key is above k or is the
zero key. -/
theorem c10_low_nullifier (t : Imt) (k : Key) (hLL : LLInv t.nodes) :
    ((k ∈ keysOf t.nodes ∨ k = zeroKey) → t.low_nullifier k = none) ∧
    (k ∉ keysOf t.nodes → k ≠ zeroKey → k.length = 32 →
      ∃ n, t.low_nullifier k = some n ∧ n.is_ln_of k = true) := by
  constructor
  · intro hpres
    rw [Imt.low_nullifier, List.find?_eq_none]
    intro n hn
    rcases hpres with hk | hk
    · obtain ⟨m, hm, hmk⟩ := (mem_keysOf _ _).mp hk
      intro hcon
      rw [is_ln_of_iff] at hcon
      obtain ⟨hlt, hnext⟩ := hcon
      have hgt : bytesLt n.key m.key = true := by
        rw [hmk]
        exact hlt
      obtain ⟨-, -, hmin, hnz⟩ :=
        next_of_gt t.nodes hLL.2.1 n hn (hLL.2.2 n hn) m hm hgt
      rcases hnext with hlt2 | hz
      · have hfalse := hmin m hm hgt
        rw [hmk] at hfalse
        rw [hfalse] at hlt2
        cases hlt2
      · exact hnz hz
    · subst hk
      intro hcon
      rw [is_ln_of_iff] at hcon
      obtain ⟨h1, -⟩ := hcon
      rw [hLL.2.1 n hn] at h1
      cases h1
  · intro habs hnzero hlen
    have hzlt : bytesLt zeroKey k = true := by
      rcases bytesLt_trichotomy zeroKey k with h | h | h
      · exact h
      · exfalso
        rw [zeroKey, ← hlen, not_bytesLt_replicate_zero k] at h
        cases h
      · exact absurd h.symm hnzero
    obtain ⟨z, hz, hzk⟩ := (mem_keysOf _ _).mp hLL.1
    have hex : ∃ n ∈ t.nodes, bytesLt n.key k = true := ⟨z, hz, by rw [hzk]; exact hzlt⟩
    obtain ⟨p, hp, hpk, hpmax⟩ := exists_max_below k t.nodes hex
    have hln : p.is_ln_of k = true := by
      rw [is_ln_of_iff]
      refine ⟨hpk, ?_⟩
      rcases hLL.2.2 p hp with ⟨hz2, -⟩ | ⟨h1, h2, h3⟩
      · exact Or.inr hz2
      · left
        obtain ⟨q, hq, hqk⟩ := (mem_keysOf _ _).mp h2
        rcases bytesLt_trichotomy k p.next_key with hlt | hgt | heq
        · exact hlt
        · exfalso
          have hqlt : bytesLt q.key k = true := by
            rw [hqk]
            exact hgt
          have hmax := hpmax q hq hqlt
          have hplt : bytesLt p.key q.key = true := by
            rw [hqk]
            exact h1
          rw [hmax] at hplt
          cases hplt
        · exact absurd (heq ▸ h2) habs
    have hsome : (t.nodes.find? (fun n => n.is_ln_of k)).isSome :=
      List.find?_isSome.mpr ⟨p, hp, hln⟩
    obtain ⟨n, hn⟩ := Option.isSome_iff_exists.mp hsome
    exact ⟨n, hn, by simpa using List.find?_some hn⟩

/-- C10 witness: on a concrete two-node tree satisfying the linked-list
invariant, asking for the low nullifier of the stored key key1 panics
(none). -/
theorem c10_low_nullifier_witness :
    LLInv sampleTree.nodes ∧ (key1 ∈ keysOf sampleTree.nodes ∨ key1 = zeroKey) ∧
      sampleTree.low_nullifier key1 = none :=
  ⟨by decide, Or.inl (by decide),
    (c10_low_nullifier sampleTree key1 (by decide)).1 (Or.inl (by decide))⟩

theorem updNext_key (k lnKey : Key) (n : IMTNode) : (updNext k lnKey n).key = n.key := by
  by_cases h : n.key == lnKey <;> simp [updNext, h]

theorem updNext_index (k lnKey : Key) (n : IMTNode) : (updNext k lnKey n).index = n.index := by
  by_cases h : n.key == lnKey <;> simp [updNext, h]

theorem updNext_of_eq (k lnKey : Key) (n : IMTNode) (h : n.key = lnKey) :
    updNext k lnKey n = { n with next_key := k } := by
  simp [updNext, h]

theorem updNext_of_ne (k lnKey : Key) (n : IMTNode) (h : n.key ≠ lnKey) :
    updNext k lnKey n = n := by
  simp [updNext, h]

theorem updValue_key (v : Value) (k : Key) (n : IMTNode) : (updValue v k n).key = n.key := by
  by_cases h : n.key == k <;> simp [updValue, h]

theorem updValue_index (v : Value) (k : Key) (n : IMTNode) : (updValue v k n).index = n.index := by
  by_cases h : n.key == k <;> simp [updValue, h]

theorem updValue_next (v : Value) (k : Key) (n : IMTNode) :
    (updValue v k n).next_key = n.next_key := by
  by_cases h : n.key == k <;> simp [updValue, h]

theorem keysOf_map_updNext (k lnKey : Key) (ns : List IMTNode) :
    keysOf (ns.map (updNext k lnKey)) = keysOf ns := by
  simp [keysOf, List.map_map, Function.comp_def, updNext_key]

theorem keysOf_map_updValue (v : Value) (k : Key) (ns : List IMTNode) :
    keysOf (ns.map (updValue v k)) = keysOf ns := by
  simp [keysOf, List.map_map, Function.comp_def, updValue_key]

theorem keysOf_append_one (ns : List IMTNode) (n : IMTNode) :
    keysOf (ns ++ [n]) = keysOf ns ++ [n.key] := by
  simp [keysOf]

theorem eq_of_key_eq (ns : List IMTNode) (hnd : (keysOf ns).Nodup) (x y : IMTNode)
    (hx : x ∈ ns) (hy : y ∈ ns) (hk : x.key = y.key) : x = y :=
  List.inj_on_of_nodup_map (by simpa [keysOf] using hnd) hx hy hk

theorem no_between (ns : List IMTNode) (hLL : LLInv ns) (ln : IMTNode) (hln : ln ∈ ns)
    (k : Key) (hisln : ln.is_ln_of k = true) (p : IMTNode) (hp : p ∈ ns)
    (h1 : bytesLt ln.key p.key = true) (h2 : bytesLt p.key k = true) : False := by
  obtain ⟨-, -, hmin, hnz⟩ := next_of_gt ns hLL.2.1 ln hln (hLL.2.2 ln hln) p hp h1
  obtain ⟨-, hnext⟩ := (is_ln_of_iff ln k).mp hisln
  rcases hnext with hlt | hz
  · have := bytesLt_trans p.key k ln.next_key h2 hlt
    rw [hmin p hp h1] at this
    cases this
  · exact hnz hz

theorem ln_gap (ns : List IMTNode) (hLL : LLInv ns) (ln : IMTNode) (hln : ln ∈ ns)
    (k : Key) (hisln : ln.is_ln_of k = true)
    (p : IMTNode) (hp : p ∈ ns) (hpne : p.key ≠ ln.key) (hpk : bytesLt p.key k = true) :
    bytesLt k p.next_key = false ∧ p.next_key ≠ zeroKey := by
  rcases bytesLt_trichotomy p.key ln.key with hc | hc | hc
  · obtain ⟨-, -, hmin, hnz⟩ := next_of_gt ns hLL.2.1 p hp (hLL.2.2 p hp) ln hln hc
    refine ⟨?_, hnz⟩
    have hnotgt : bytesLt ln.key p.next_key = false := hmin ln hln hc
    obtain ⟨hlnk, -⟩ := (is_ln_of_iff ln k).mp hisln
    rcases Bool.eq_false_or_eq_true (bytesLt k p.next_key) with hcc | hcc
    · exfalso
      rcases bytesLt_trichotomy ln.key p.next_key with hd | hd | hd
      · rw [hnotgt] at hd
        cases hd
      · have := bytesLt_trans k p.next_key ln.key hcc hd
        rw [bytesLt_asymm ln.key k hlnk] at this
        cases this
      · rw [← hd] at hcc
        rw [bytesLt_asymm ln.key k hlnk] at hcc
        cases hcc
    · exact hcc
  · exact absurd (no_between ns hLL ln hln k hisln p hp hc hpk) (fun h => h)
  · exact absurd hc hpne

theorem mem_map_updNext (k lnKey : Key) (ns : List IMTNode) (x : IMTNode) :
    x ∈ ns.map (updNext k lnKey) ↔ ∃ y ∈ ns, updNext k lnKey y = x := by
  simp [List.mem_map]

theorem ll_insert_preserved (ns : List IMTNode) (ln : IMTNode) (k : Key) (idx : Nat) (v : Value)
    (hLL : LLInv ns) (hnd : (keysOf ns).Nodup)
    (hln : ln ∈ ns) (hisln : ln.is_ln_of k = true) (_hfresh : k ∉ keysOf ns) :
    LLInv (ns.map (updNext k ln.key) ++
      [{ index := idx, key := k, value := v, next_key := ln.next_key }]) := by
  obtain ⟨hlnk, hlnnext⟩ := (is_ln_of_iff ln k).mp hisln
  have hkz : bytesLt k zeroKey = false := by
    rcases Bool.eq_false_or_eq_true (bytesLt k zeroKey) with hc | hc
    · have := bytesLt_trans ln.key k zeroKey hlnk hc
      rw [hLL.2.1 ln hln] at this
      cases this
    · exact hc
  refine ⟨?_, ?_, ?_⟩
  · rw [keysOf_append_one, keysOf_map_updNext]
    exact List.mem_append_left _ hLL.1
  · intro n hn
    rcases List.mem_append.mp hn with hn1 | hn2
    · obtain ⟨y, hy, hyx⟩ := (mem_map_updNext k ln.key ns n).mp hn1
      rw [← hyx, updNext_key]
      exact hLL.2.1 y hy
    · rw [List.mem_singleton.mp hn2]
      exact hkz
  · intro n hn
    rcases List.mem_append.mp hn with hn1 | hn2
    · obtain ⟨y, hy, hyx⟩ := (mem_map_updNext k ln.key ns n).mp hn1
      by_cases hcase : y.key = ln.key
      · have hyln : y = ln := eq_of_key_eq ns hnd y ln hy hln hcase
        subst hyln
        rw [updNext_of_eq k y.key y rfl] at hyx
        refine Or.inr ?_
        rw [← hyx]
        refine ⟨hlnk, ?_, ?_⟩
        · rw [keysOf_append_one, keysOf_map_updNext]
          exact List.mem_append_right _ (by simp)
        · intro m hm hgt
          rcases List.mem_append.mp hm with hm1 | hm2
          · obtain ⟨z, hz, hzx⟩ := (mem_map_updNext k y.key ns m).mp hm1
            rw [← hzx, updNext_key] at hgt ⊢
            rcases Bool.eq_false_or_eq_true (bytesLt z.key k) with hc | hc
            · exact absurd (no_between ns hLL y hy k hisln z hz hgt hc) (fun h => h)
            · exact hc
          · rw [List.mem_singleton.mp hm2]
            exact bytesLt_irrefl k
      · rw [updNext_of_ne k ln.key y hcase] at hyx
        subst hyx
        rcases hLL.2.2 y hy with ⟨hz, hmaxold⟩ | ⟨h1, h2, h3⟩
        · refine Or.inl ⟨hz, ?_⟩
          intro m hm
          rcases List.mem_append.mp hm with hm1 | hm2
          · obtain ⟨z, hz2, hzx⟩ := (mem_map_updNext k ln.key ns m).mp hm1
            rw [← hzx, updNext_key]
            exact hmaxold z hz2
          · rw [List.mem_singleton.mp hm2]
            rcases Bool.eq_false_or_eq_true (bytesLt y.key k) with hc | hc
            · rcases bytesLt_trichotomy y.key ln.key with hd | hd | hd
              · have := hmaxold ln hln
                rw [this] at hd
                cases hd
              · exact absurd (no_between ns hLL ln hln k hisln y hy hd hc) (fun h => h)
              · exact absurd hd hcase
            · exact hc
        · refine Or.inr ⟨h1, ?_, ?_⟩
          · rw [keysOf_append_one, keysOf_map_updNext]
            exact List.mem_append_left _ h2
          · intro m hm hgt
            rcases List.mem_append.mp hm with hm1 | hm2
            · obtain ⟨z, hz2, hzx⟩ := (mem_map_updNext k ln.key ns m).mp hm1
              rw [← hzx, updNext_key] at hgt ⊢
              exact h3 z hz2 hgt
            · rw [List.mem_singleton.mp hm2] at hgt ⊢
              exact (ln_gap ns hLL ln hln k hisln y hy hcase hgt).1
    · rw [List.mem_singleton.mp hn2]
      rcases Bool.eq_false_or_eq_true (bytesLt k ln.next_key) with hsc | hzc
      swap
      · have hz : ln.next_key = zeroKey := by
          rcases hlnnext with hc | hc
          · rw [hzc] at hc
            cases hc
          · exact hc
        rcases hLL.2.2 ln hln with ⟨-, hmaxold⟩ | ⟨h1, -, -⟩
        · refine Or.inl ⟨hz, ?_⟩
          intro m hm
          rcases List.mem_append.mp hm with hm1 | hm2
          · obtain ⟨z, hz2, hzx⟩ := (mem_map_updNext k ln.key ns m).mp hm1
            rw [← hzx, updNext_key]
            rcases Bool.eq_false_or_eq_true (bytesLt k z.key) with hc | hc
            · have := bytesLt_trans ln.key k z.key hlnk hc
              rw [hmaxold z hz2] at this
              cases this
            · exact hc
          · rw [List.mem_singleton.mp hm2]
            exact bytesLt_irrefl k
        · exfalso
          rw [hz] at h1
          rw [hLL.2.1 ln hln] at h1
          cases h1
      · refine Or.inr ⟨hsc, ?_, ?_⟩
        · have hmem : ln.next_key ∈ keysOf ns := by
            rcases hLL.2.2 ln hln with ⟨hz, -⟩ | ⟨-, h2, -⟩
            · exfalso
              rw [hz] at hsc
              rw [hkz] at hsc
              cases hsc
            · exact h2
          rw [keysOf_append_one, keysOf_map_updNext]
          exact List.mem_append_left _ hmem
        · intro m hm hgt
          rcases List.mem_append.mp hm with hm1 | hm2
          · obtain ⟨z, hz2, hzx⟩ := (mem_map_updNext k ln.key ns m).mp hm1
            rw [← hzx, updNext_key] at hgt ⊢
            have hlnz : bytesLt ln.key z.key = true := bytesLt_trans ln.key k z.key hlnk hgt
            rcases hLL.2.2 ln hln with ⟨-, hmaxold⟩ | ⟨-, -, h3⟩
            · rw [hmaxold z hz2] at hlnz
              cases hlnz
            · exact h3 z hz2 hlnz
          · rw [List.mem_singleton.mp hm2] at hgt
            rw [bytesLt_irrefl k] at hgt
            cases hgt

theorem div_pow_eq_iff (m l i : Nat) : m / 2 ^ l = i ↔ (i * 2 ^ l ≤ m ∧ m < (i + 1) * 2 ^ l) := by
  constructor
  · intro h
    subst h
    constructor
    · exact Nat.div_mul_le_self m (2 ^ l)
    · have hc : 0 < 2 ^ l := Nat.pos_pow_of_pos l (by omega)
      calc m = 2 ^ l * (m / 2 ^ l) + m % 2 ^ l := (Nat.div_add_mod m (2 ^ l)).symm
        _ < 2 ^ l * (m / 2 ^ l) + 2 ^ l := Nat.add_lt_add_left (Nat.mod_lt m hc) _
        _ = (m / 2 ^ l + 1) * 2 ^ l := by ring
  · intro ⟨h1, h2⟩
    exact Nat.div_eq_of_lt_le h1 h2

theorem subHash_off_congr (d : List Nat → List Nat) (leaf1 leaf2 : Nat → Option Hash) (m : Nat)
    (hm : ∀ j, j ≠ m → leaf1 j = leaf2 j) (l i : Nat) (hoff : i ≠ m / 2 ^ l) :
    subHash d leaf1 l i = subHash d leaf2 l i := by
  refine subHash_congr d leaf1 leaf2 l i ?_
  intro j hj1 hj2
  refine hm j ?_
  intro hje
  subst hje
  exact hoff ((div_pow_eq_iff j l i).mpr ⟨hj1, hj2⟩).symm

theorem leafF_map_updNext (d : List Nat → List Nat) (k : Key) (ln : IMTNode)
    (ns : List IMTNode) (hnd : (keysOf ns).Nodup) (hln : ln ∈ ns) (j : Nat)
    (hj : j ≠ ln.index) :
    leafF d (ns.map (updNext k ln.key)) j = leafF d ns j := by
  rw [leafF, leafF, List.find?_map]
  have hpred : ((fun n : IMTNode => n.index == j) ∘ updNext k ln.key) =
      (fun n : IMTNode => n.index == j) := by
    funext y
    simp [Function.comp, updNext_index]
  rw [hpred]
  cases hfind : ns.find? (fun n => n.index == j) with
  | none => rfl
  | some y =>
      have hyj : y.index = j := by simpa using List.find?_some hfind
      have hymem : y ∈ ns := List.mem_of_find?_eq_some hfind
      have hyne : y.key ≠ ln.key := by
        intro he
        have : y = ln := eq_of_key_eq ns hnd y ln hymem hln he
        rw [this] at hyj
        exact hj hyj.symm
      simp [updNext_of_ne k ln.key y hyne]

theorem leafF_map_updValue (d : List Nat → List Nat) (v : Value) (nd : IMTNode)
    (ns : List IMTNode) (hnd : (keysOf ns).Nodup) (hmem : nd ∈ ns) (j : Nat)
    (hj : j ≠ nd.index) :
    leafF d (ns.map (updValue v nd.key)) j = leafF d ns j := by
  rw [leafF, leafF, List.find?_map]
  have hpred : ((fun n : IMTNode => n.index == j) ∘ updValue v nd.key) =
      (fun n : IMTNode => n.index == j) := by
    funext y
    simp [Function.comp, updValue_index]
  rw [hpred]
  cases hfind : ns.find? (fun n => n.index == j) with
  | none => rfl
  | some y =>
      have hyj : y.index = j := by simpa using List.find?_some hfind
      have hymem : y ∈ ns := List.mem_of_find?_eq_some hfind
      have hyne : y.key ≠ nd.key := by
        intro he
        have : y = nd := eq_of_key_eq ns hnd y nd hymem hmem he
        rw [this] at hyj
        exact hj hyj.symm
      have : updValue v nd.key y = y := by
        simp [updValue, hyne]
      simp [this]

theorem leafF_append_ne (d : List Nat → List Nat) (ns : List IMTNode) (node : IMTNode)
    (j : Nat) (hj : j ≠ node.index) :
    leafF d (ns ++ [node]) j = leafF d ns j := by
  rw [leafF, leafF, List.find?_append]
  have hsing : List.find? (fun n : IMTNode => n.index == j) [node] = none := by
    rw [List.find?_eq_none]
    intro x hx
    rw [List.mem_singleton.mp hx]
    simpa using fun h => hj h.symm
  rw [hsing]
  cases ns.find? (fun n : IMTNode => n.index == j) <;> rfl

theorem refresh_depth_eq (t : Imt) : t.refresh_depth = { t with depth := depthFor t.size } := rfl

theorem insert_verify_ok (digest : List Nat → List Nat) (w : IMTInsert)
    (hv : w.is_valid_ln digest = true)
    (heq : imt_root digest (w.old_size + 1) w.node w.node_siblings =
      imt_root digest (w.old_size + 1) { w.ln_node with next_key := w.node.key }
        w.updated_ln_siblings) :
    w.verify digest w.old_root =
      Except.ok (imt_root digest (w.old_size + 1) w.node w.node_siblings) := by
  rw [IMTInsert.verify, if_pos rfl, if_pos hv, if_pos heq]

theorem insert_node_spec (d : List Nat → List Nat) (t : Imt) (k : Key) (v : Value)
    (hI : Inv d t) (tf : Imt) (w : IMTInsert)
    (hins : t.insert_node d k v = some (tf, w)) :
    Inv d tf ∧ tf.size = t.size + 1 ∧ tf.depth = depthFor (t.size + 1) ∧
      w.old_root = t.root ∧ IMTInsert.verify d w t.root = Except.ok tf.root := by
  rw [Imt.insert_node] at hins
  by_cases hdup : t.nodes.any (fun n => n.key == k)
  · rw [if_pos hdup] at hins
    cases hins
  · rw [if_neg hdup] at hins
    have hfresh : k ∉ keysOf t.nodes := by
      intro hk
      obtain ⟨n, hn, hnk⟩ := (mem_keysOf _ _).mp hk
      exact hdup (List.any_eq_true.mpr ⟨n, hn, by simp [hnk]⟩)
    cases hlow : t.low_nullifier k with
    | none =>
        simp only [hlow] at hins
        exact Option.noConfusion hins
    | some ln =>
      simp only [hlow] at hins
      have hlnmem : ln ∈ t.nodes := by
        rw [Imt.low_nullifier] at hlow
        exact List.mem_of_find?_eq_some hlow
      have hisln : ln.is_ln_of k = true := by
        rw [Imt.low_nullifier] at hlow
        simpa using List.find?_some hlow
      rw [inv_siblings d t hI ln hlnmem] at hins
      have hnd1 : (keysOf (t.nodes.map (updNext k ln.key))).Nodup := by
        rw [keysOf_map_updNext]
        exact hI.keys_nodup
      have hidx1 : (t.nodes.map (updNext k ln.key)).map (fun x => x.index) =
          List.range t.size := by
        rw [List.map_map]
        have hco : ((fun x : IMTNode => x.index) ∘ updNext k ln.key) =
            fun x : IMTNode => x.index := by
          funext y
          simp [Function.comp, updNext_index]
        rw [hco, hI.idx_eq]
      have hlnmem1 : ({ ln with next_key := k } : IMTNode) ∈ t.nodes.map (updNext k ln.key) := by
        have := List.mem_map_of_mem (updNext k ln.key) hlnmem
        rw [updNext_of_eq k ln.key ln rfl] at this
        exact this
      have hfind1 : (t.nodes.map (updNext k ln.key)).find? (fun x => x.key == ln.key) =
          some { ln with next_key := k } :=
        find?_key_eq (t.nodes.map (updNext k ln.key)) { ln with next_key := k } hnd1 hlnmem1
      have hleaf1 : leafF d (t.nodes.map (updNext k ln.key)) ln.index =
          some (IMTNode.hash d { ln with next_key := k }) :=
        leafF_of_mem d (t.nodes.map (updNext k ln.key)) { ln with next_key := k }
          (by rw [hidx1]; exact List.nodup_range _) hlnmem1
      have hoff1 : ∀ l i, l ≤ t.depth → i ≠ ln.index / 2 ^ l →
          t.hashes l i = subHash d (leafF d (t.nodes.map (updNext k ln.key))) l i := by
        intro l i hl hi
        rw [hI.cache_ok l i hl]
        refine (subHash_off_congr d (leafF d (t.nodes.map (updNext k ln.key)))
          (leafF d t.nodes) ln.index ?_ l i hi).symm
        intro j hj
        exact leafF_map_updNext d k ln t.nodes hI.keys_nodup hlnmem j hj
      obtain ⟨tA, sibsA, hrtA, hnodesA, hsizeA, hdepthA, hsibsA, hcacheA, haboveA,
        topA, htopA, hrootA⟩ :=
        refresh_tree_spec d { t with nodes := t.nodes.map (updNext k ln.key) } ln.key
          { ln with next_key := k } hfind1 hleaf1 hoff1
      dsimp only at hnodesA hsizeA hdepthA hcacheA haboveA htopA hrootA
      simp only [hrtA, refresh_depth_eq, hnodesA, hsizeA, hdepthA] at hins
      have hnd5 : (keysOf (t.nodes.map (updNext k ln.key) ++
          [{ index := t.size, key := k, value := v, next_key := ln.next_key }])).Nodup := by
        rw [keysOf_append_one, keysOf_map_updNext]
        refine List.Nodup.append hI.keys_nodup (List.nodup_singleton _) ?_
        intro a ha hb
        rw [List.mem_singleton] at hb
        subst hb
        exact hfresh ha
      have hidx5 : ((t.nodes.map (updNext k ln.key) ++
          ([{ index := t.size, key := k, value := v, next_key := ln.next_key }] :
            List IMTNode)).map (fun x => x.index)) = List.range (t.size + 1) := by
        rw [List.map_append, hidx1]
        simp [List.range_succ]
      have hmem5 : ({ index := t.size, key := k, value := v, next_key := ln.next_key } : IMTNode) ∈
          t.nodes.map (updNext k ln.key) ++
            [{ index := t.size, key := k, value := v, next_key := ln.next_key }] :=
        List.mem_append_right _ (by simp)
      have hfind5 : (t.nodes.map (updNext k ln.key) ++
          ([{ index := t.size, key := k, value := v, next_key := ln.next_key }] :
            List IMTNode)).find? (fun x => x.key == k) =
          some { index := t.size, key := k, value := v, next_key := ln.next_key } :=
        find?_key_eq _ _ hnd5 hmem5
      have hleaf5 : leafF d (t.nodes.map (updNext k ln.key) ++
          [{ index := t.size, key := k, value := v, next_key := ln.next_key }]) t.size =
          some (IMTNode.hash d { index := t.size, key := k, value := v, next_key := ln.next_key }) :=
        leafF_of_mem d _ _ (by rw [hidx5]; exact List.nodup_range _) hmem5
      have hdmono : t.depth ≤ depthFor (t.size + 1) := by
        rw [hI.depth_eq]
        exact depthFor_min t.size (depthFor (t.size + 1)) hI.size_pos
          (le_trans (Nat.le_succ t.size) (size_le_pow_depthFor (t.size + 1) (by omega)))
      have hsize_lt : t.size < 2 ^ depthFor (t.size + 1) :=
        lt_of_lt_of_le (Nat.lt_succ_self t.size) (size_le_pow_depthFor (t.size + 1) (by omega))
      have hoff5 : ∀ l i, l ≤ depthFor (t.size + 1) → i ≠ t.size / 2 ^ l →
          tA.hashes l i = subHash d (leafF d (t.nodes.map (updNext k ln.key) ++
            [{ index := t.size, key := k, value := v, next_key := ln.next_key }])) l i := by
        intro l i hl hi
        by_cases hld : l ≤ t.depth
        · rw [hcacheA l i hld]
          refine (subHash_off_congr d
            (leafF d (t.nodes.map (updNext k ln.key) ++
              [{ index := t.size, key := k, value := v, next_key := ln.next_key }]))
            (leafF d (t.nodes.map (updNext k ln.key))) t.size ?_ l i hi).symm
          intro j hj
          exact leafF_append_ne d _ _ j hj
        · have hlgt : t.depth < l := by omega
          rw [haboveA l i hlgt, hI.cache_none l i hlgt]
          refine (subHash_none d _ l i ?_).symm
          intro j hj1 hj2
          have hsz : t.size ≤ 2 ^ t.depth := inv_size_le d t hI
          have hi1 : 1 ≤ i := by
            rcases Nat.eq_zero_or_pos i with h0 | h
            · exfalso
              apply hi
              rw [h0]
              have hpl : (2 : Nat) ^ t.depth < 2 ^ l :=
                Nat.pow_lt_pow_right (by omega) hlgt
              exact (Nat.div_eq_of_lt (by omega)).symm
            · exact h
          have hbig : 2 ^ (t.depth + 1) ≤ 2 ^ l := Nat.pow_le_pow_right (by omega) (by omega)
          have hps : 2 ^ (t.depth + 1) = 2 * 2 ^ t.depth := by
            rw [pow_succ]
            ring
          have hjge : t.size + 1 ≤ j := by
            have hp : 2 ^ l ≤ i * 2 ^ l := Nat.le_mul_of_pos_left _ hi1
            have hsp : 1 ≤ t.size := hI.size_pos
            omega
          refine leafF_none d _ j ?_
          intro n hn
          have hm1 : n.index ∈ List.range (t.size + 1) := by
            rw [← hidx5]
            exact List.mem_map_of_mem _ hn
          have hm2 : n.index < t.size + 1 := List.mem_range.mp hm1
          omega
      obtain ⟨tB, sibsB, hrtB, hnodesB, hsizeB, hdepthB, hsibsB, hcacheB, haboveB,
        topB, htopB, hrootB⟩ :=
        refresh_tree_spec d
          { root := tA.root, size := t.size + 1, depth := depthFor (t.size + 1),
            nodes := t.nodes.map (updNext k ln.key) ++
              [{ index := t.size, key := k, value := v, next_key := ln.next_key }],
            hashes := tA.hashes }
          k { index := t.size, key := k, value := v, next_key := ln.next_key }
          hfind5 hleaf5 hoff5
      dsimp only at hnodesB hsizeB hdepthB hsibsB hcacheB haboveB htopB hrootB
      simp only [hrtB] at hins
      have hI6 : Inv d tB := by
        refine ⟨?_, ?_, ?_, ?_, ?_, ?_, ?_, ?_⟩
        · rw [hnodesB, hsizeB]
          exact hidx5
        · rw [hnodesB]
          exact hnd5
        · rw [hdepthB, hsizeB]
        · rw [hsizeB]
          omega
        · intro l i hl
          rw [hnodesB]
          refine hcacheB l i ?_
          rw [hdepthB] at hl
          exact hl
        · intro l i hl
          rw [hdepthB] at hl
          rw [haboveB l i hl, haboveA l i (by omega), hI.cache_none l i (by omega)]
        · refine ⟨topB, ?_, ?_⟩
          · rw [hnodesB, hdepthB]
            have hdiv : t.size / 2 ^ depthFor (t.size + 1) = 0 := Nat.div_eq_of_lt hsize_lt
            rw [hdiv] at htopB
            exact htopB
          · rw [hsizeB]
            exact hrootB
        · rw [hnodesB]
          exact ll_insert_preserved t.nodes ln k t.size v hI.ll hI.keys_nodup hlnmem hisln hfresh
      have hmemB : ({ ln with next_key := k } : IMTNode) ∈ tB.nodes := by
        rw [hnodesB]
        exact List.mem_append_left _ hlnmem1
      have hsibs6 := inv_siblings d tB hI6 { ln with next_key := k } hmemB
      dsimp only at hsibs6
      simp only [hsibs6] at hins
      injection hins with hpair
      injection hpair with htf hw
      subst htf
      subst hw
      have hroot_ln := inv_imt_root d t hI ln hlnmem
      have hr1 := inv_imt_root d tB hI6
        { index := t.size, key := k, value := v, next_key := ln.next_key }
        (by rw [hnodesB]; exact hmem5)
      have hr2 := inv_imt_root d tB hI6 { ln with next_key := k } hmemB
      dsimp only at hr1 hr2
      rw [hsizeB] at hr1 hr2
      have hsibsB2 : sibsB = specSiblings d tB.nodes tB.depth t.size := by
        rw [hsibsB, ← hnodesB, ← hdepthB]
      have hvalid : IMTInsert.is_valid_ln d
          { old_root := t.root, old_size := t.size, ln_node := ln,
            ln_siblings := specSiblings d t.nodes t.depth ln.index,
            node := { index := t.size, key := k, value := v, next_key := ln.next_key },
            node_siblings := sibsB,
            updated_ln_siblings := specSiblings d tB.nodes tB.depth ln.index } = true := by
        simp [IMTInsert.is_valid_ln, node_exists, hisln, hroot_ln]
      have heq : imt_root d (t.size + 1)
          ({ index := t.size, key := k, value := v, next_key := ln.next_key } : IMTNode) sibsB =
          imt_root d (t.size + 1) ({ ln with next_key := k } : IMTNode)
            (specSiblings d tB.nodes tB.depth ln.index) := by
        rw [hsibsB2]
        exact hr1.trans hr2.symm
      have hfin := insert_verify_ok d
        { old_root := t.root, old_size := t.size, ln_node := ln,
          ln_siblings := specSiblings d t.nodes t.depth ln.index,
          node := { index := t.size, key := k, value := v, next_key := ln.next_key },
          node_siblings := sibsB,
          updated_ln_siblings := specSiblings d tB.nodes tB.depth ln.index }
        hvalid heq
      have hfin2 : imt_root d (t.size + 1)
          ({ index := t.size, key := k, value := v, next_key := ln.next_key } : IMTNode) sibsB =
          tB.root := by
        rw [hsibsB2]
        exact hr1
      refine ⟨hI6, hsizeB, hdepthB, rfl, ?_⟩
      exact hfin.trans (congrArg Except.ok hfin2)

theorem ll_map_updValue (ns : List IMTNode) (v : Value) (k : Key) (hLL : LLInv ns) :
    LLInv (ns.map (updValue v k)) := by
  obtain ⟨h1, h2, h3⟩ := hLL
  refine ⟨?_, ?_, ?_⟩
  · rw [show keysOf (ns.map (updValue v k)) = keysOf ns from keysOf_map_updValue v k ns]
    exact h1
  · intro n hn
    obtain ⟨y, hy, hyx⟩ := List.mem_map.mp hn
    rw [← hyx, updValue_key]
    exact h2 y hy
  · intro n hn
    obtain ⟨y, hy, hyx⟩ := List.mem_map.mp hn
    subst hyx
    rcases h3 y hy with ⟨hz, hmax⟩ | ⟨ha, hb, hc⟩
    · refine Or.inl ⟨by rw [updValue_next]; exact hz, ?_⟩
      intro m hm
      obtain ⟨z, hz2, hzx⟩ := List.mem_map.mp hm
      rw [← hzx, updValue_key, updValue_key]
      exact hmax z hz2
    · refine Or.inr ⟨?_, ?_, ?_⟩
      · rw [updValue_key, updValue_next]
        exact ha
      · rw [updValue_next, show keysOf (ns.map (updValue v k)) = keysOf ns from
          keysOf_map_updValue v k ns]
        exact hb
      · intro m hm hgt
        obtain ⟨z, hz2, hzx⟩ := List.mem_map.mp hm
        rw [← hzx, updValue_key] at hgt ⊢
        rw [updValue_key] at hgt
        rw [updValue_next]
        exact hc z hz2 hgt

theorem specSibs_congr_off (d : List Nat → List Nat) (leaf1 leaf2 : Nat → Option Hash) (m : Nat)
    (hm : ∀ j, j ≠ m → leaf1 j = leaf2 j) :
    ∀ (togo level index : Nat),
    (∀ j, j < togo → sibIdx (index / 2 ^ j) ≠ m / 2 ^ (level + j)) →
    specSibs d leaf1 togo level index = specSibs d leaf2 togo level index
  | 0, _, _, _ => rfl
  | T + 1, level, index, H => by
      have h0 : sibIdx index ≠ m / 2 ^ level := by
        have := H 0 (by omega)
        simpa using this
      have hrec : ∀ j, j < T → sibIdx (index / 2 / 2 ^ j) ≠ m / 2 ^ (level + 1 + j) := by
        intro j hj
        rw [div2_pow]
        have := H (j + 1) (by omega)
        rw [show level + (j + 1) = level + 1 + j by omega] at this
        exact this
      simp only [specSibs]
      rw [subHash_off_congr d leaf1 leaf2 m hm level (sibIdx index) h0,
        specSibs_congr_off d leaf1 leaf2 m hm T (level + 1) (index / 2) hrec]

theorem update_verify_ok (digest : List Nat → List Nat) (w : IMTUpdate)
    (hv : node_exists digest w.old_root w.size w.node w.node_siblings = true) :
    w.verify digest w.old_root =
      Except.ok (imt_root digest w.size { w.node with value := w.new_value } w.node_siblings) := by
  rw [IMTUpdate.verify, if_pos rfl, if_pos hv]

theorem update_node_spec (d : List Nat → List Nat) (t : Imt) (k : Key) (v : Value)
    (hI : Inv d t) (tf : Imt) (w : IMTUpdate)
    (hupd : t.update_node d k v = some (tf, w)) :
    Inv d tf ∧ tf.size = t.size ∧ tf.depth = t.depth ∧ w.old_root = t.root ∧
      IMTUpdate.verify d w t.root = Except.ok tf.root := by
  rw [Imt.update_node] at hupd
  cases hfind : t.nodes.find? (fun n => n.key == k) with
  | none =>
      simp only [hfind] at hupd
      exact Option.noConfusion hupd
  | some nd =>
      simp only [hfind] at hupd
      have hndmem : nd ∈ t.nodes := List.mem_of_find?_eq_some hfind
      have hndkey : nd.key = k := by simpa using List.find?_some hfind
      subst hndkey
      have hnd1 : (keysOf (t.nodes.map (updValue v nd.key))).Nodup := by
        rw [keysOf_map_updValue]
        exact hI.keys_nodup
      have hidx1 : (t.nodes.map (updValue v nd.key)).map (fun x => x.index) =
          List.range t.size := by
        rw [List.map_map]
        have hco : ((fun x : IMTNode => x.index) ∘ updValue v nd.key) =
            fun x : IMTNode => x.index := by
          funext y
          simp [Function.comp, updValue_index]
        rw [hco, hI.idx_eq]
      have hmem1 : ({ nd with value := v } : IMTNode) ∈ t.nodes.map (updValue v nd.key) := by
        have := List.mem_map_of_mem (updValue v nd.key) hndmem
        rw [show updValue v nd.key nd = { nd with value := v } by simp [updValue]] at this
        exact this
      have hfind1 : (t.nodes.map (updValue v nd.key)).find? (fun x => x.key == nd.key) =
          some { nd with value := v } :=
        find?_key_eq (t.nodes.map (updValue v nd.key)) { nd with value := v } hnd1 hmem1
      have hleaf1 : leafF d (t.nodes.map (updValue v nd.key)) nd.index =
          some (IMTNode.hash d { nd with value := v }) :=
        leafF_of_mem d (t.nodes.map (updValue v nd.key)) { nd with value := v }
          (by rw [hidx1]; exact List.nodup_range _) hmem1
      have hleafcongr : ∀ j, j ≠ nd.index →
          leafF d (t.nodes.map (updValue v nd.key)) j = leafF d t.nodes j := by
        intro j hj
        exact leafF_map_updValue d v nd t.nodes hI.keys_nodup hndmem j hj
      have hoff1 : ∀ l i, l ≤ t.depth → i ≠ nd.index / 2 ^ l →
          t.hashes l i = subHash d (leafF d (t.nodes.map (updValue v nd.key))) l i := by
        intro l i hl hi
        rw [hI.cache_ok l i hl]
        exact (subHash_off_congr d (leafF d (t.nodes.map (updValue v nd.key)))
          (leafF d t.nodes) nd.index hleafcongr l i hi).symm
      obtain ⟨tA, sibsA, hrtA, hnodesA, hsizeA, hdepthA, hsibsA, hcacheA, haboveA,
        topA, htopA, hrootA⟩ :=
        refresh_tree_spec d { t with nodes := t.nodes.map (updValue v nd.key) } nd.key
          { nd with value := v } hfind1 hleaf1 hoff1
      dsimp only at hnodesA hsizeA hdepthA hsibsA hcacheA haboveA htopA hrootA
      simp only [hrtA] at hupd
      injection hupd with hpair
      injection hpair with htf hw
      subst htf
      subst hw
      have hI6 : Inv d tA := by
        refine ⟨?_, ?_, ?_, ?_, ?_, ?_, ?_, ?_⟩
        · rw [hnodesA, hsizeA]
          exact hidx1
        · rw [hnodesA]
          exact hnd1
        · rw [hdepthA, hsizeA]
          exact hI.depth_eq
        · rw [hsizeA]
          exact hI.size_pos
        · intro l i hl
          rw [hnodesA]
          refine hcacheA l i ?_
          rw [hdepthA] at hl
          exact hl
        · intro l i hl
          rw [hdepthA] at hl
          rw [haboveA l i hl, hI.cache_none l i hl]
        · refine ⟨topA, ?_, ?_⟩
          · rw [hnodesA, hdepthA]
            have hdiv : nd.index / 2 ^ t.depth = 0 := inv_div_depth d t hI nd hndmem
            rw [hdiv] at htopA
            exact htopA
          · rw [hsizeA]
            exact hrootA
        · rw [hnodesA]
          exact ll_map_updValue t.nodes v nd.key hI.ll
      have hsibs_eq : specSiblings d (t.nodes.map (updValue v nd.key)) t.depth nd.index =
          specSiblings d t.nodes t.depth nd.index := by
        refine specSibs_congr_off d (leafF d (t.nodes.map (updValue v nd.key)))
          (leafF d t.nodes) nd.index hleafcongr t.depth 0 nd.index ?_
        intro j hj
        simpa using sibIdx_ne (nd.index / 2 ^ j)
      have hvalid : node_exists d t.root tA.size nd sibsA = true := by
        rw [node_exists, hsibsA, hsizeA, hsibs_eq]
        have := inv_imt_root d t hI nd hndmem
        rw [this]
        simp
      have hfin := update_verify_ok d
        { old_root := t.root, size := tA.size, node := nd, node_siblings := sibsA,
          new_value := v } hvalid
      have hfin2 : imt_root d tA.size ({ nd with value := v } : IMTNode) sibsA = tA.root := by
        have := inv_imt_root d tA hI6 { nd with value := v } (by rw [hnodesA]; exact hmem1)
        dsimp only at this
        rw [hsibsA, hnodesA.symm, hdepthA.symm]
        exact this
      refine ⟨hI6, hsizeA, hdepthA, rfl, ?_⟩
      exact hfin.trans (congrArg Except.ok hfin2)

theorem new_eq (d : List Nat → List Nat) : Imt.new d =
    { root := d (IMTNode.hash d initNode ++ u64be 1), size := 1, depth := 0,
      nodes := [initNode],
      hashes := cacheInsert (fun _ _ => none) 0 0 (IMTNode.hash d initNode) } := rfl

theorem inv_new (d : List Nat → List Nat) : Inv d (Imt.new d) := by
  rw [new_eq]
  refine ⟨?_, ?_, ?_, ?_, ?_, ?_, ?_, ?_⟩
  · show [initNode].map (fun n => n.index) = List.range 1
    decide
  · show (keysOf [initNode]).Nodup
    decide
  · show 0 = depthFor 1
    decide
  · show 1 ≤ 1
    decide
  · intro l i hl
    dsimp only at hl ⊢
    have hl0 : l = 0 := by omega
    subst hl0
    by_cases hi : i = 0
    · subst hi
      rw [cacheInsert_self]
      have hle : leafF d [initNode] 0 = some (IMTNode.hash d initNode) := by
        rw [leafF]
        simp [List.find?, initNode]
      rw [subHash, hle]
    · simp only [cacheInsert]
      rw [if_neg (by simp [hi])]
      have hle : leafF d [initNode] i = none := by
        refine leafF_none d [initNode] i ?_
        intro n hn
        rw [List.mem_singleton.mp hn]
        simp [initNode]
        omega
      rw [subHash, hle]
  · intro l i hl
    dsimp only at hl ⊢
    simp only [cacheInsert]
    rw [if_neg (by omega)]
  · refine ⟨IMTNode.hash d initNode, ?_, rfl⟩
    dsimp only
    rw [subHash, leafF]
    simp [List.find?, initNode]
  · show LLInv [initNode]
    decide

theorem applyReq_spec (d : List Nat → List Nat) (t : Imt) (r : MutReq) (hI : Inv d t)
    (t2 : Imt) (m : IMTMutate) (h : t.applyReq d r = some (t2, m)) :
    Inv d t2 ∧ IMTMutate.verify d m t.root = Except.ok t2.root := by
  cases r with
  | ins k v =>
      rw [Imt.applyReq] at h
      cases hins : t.insert_node d k v with
      | none =>
          rw [hins] at h
          exact Option.noConfusion h
      | some p =>
          obtain ⟨t', w⟩ := p
          rw [hins] at h
          injection h with hp
          injection hp with h1 h2
          subst h1
          subst h2
          obtain ⟨hInv, -, -, -, hver⟩ := insert_node_spec d t k v hI t' w hins
          exact ⟨hInv, hver⟩
  | upd k v =>
      rw [Imt.applyReq] at h
      cases hupd : t.update_node d k v with
      | none =>
          rw [hupd] at h
          exact Option.noConfusion h
      | some p =>
          obtain ⟨t', w⟩ := p
          rw [hupd] at h
          injection h with hp
          injection hp with h1 h2
          subst h1
          subst h2
          obtain ⟨hInv, -, -, -, hver⟩ := update_node_spec d t k v hI t' w hupd
          exact ⟨hInv, hver⟩

theorem runTrace_spec (d : List Nat → List Nat) :
    ∀ (reqs : List MutReq) (t : Imt), Inv d t →
    ∀ trace, t.runTrace d reqs = some trace → trace.all (checkTriple d) = true
  | [], t, _, trace, h => by
      rw [Imt.runTrace] at h
      injection h with h1
      rw [← h1]
      rfl
  | r :: rs, t, hI, trace, h => by
      rw [Imt.runTrace] at h
      cases happ : t.applyReq d r with
      | none =>
          rw [happ] at h
          exact Option.noConfusion h
      | some p =>
          obtain ⟨t2, m⟩ := p
          rw [happ] at h
          cases hrun : t2.runTrace d rs with
          | none =>
              simp only [hrun] at h
              exact Option.noConfusion h
          | some tr =>
              simp only [hrun] at h
              injection h with h1
              obtain ⟨hI2, hver⟩ := applyReq_spec d t r hI t2 m happ
              rw [← h1]
              rw [List.all_cons]
              have hc : checkTriple d (t.root, m, t2.root) = true := by
                rw [checkTriple, hver]
                simp
              rw [hc, runTrace_spec d rs t2 hI2 tr hrun]
              rfl

/-- C1: round trip between the engine and the verifier.  For every
sequence of mutation requests that the engine accepts starting from a
fresh tree, every emitted witness, verified against the root immediately
before its mutation, returns exactly the root immediately after it. -/
theorem c1_round_trip (digest : List Nat → List Nat) (reqs : List MutReq)
    (trace : List (Hash × IMTMutate × Hash))
    (hrun : (Imt.new digest).runTrace digest reqs = some trace) :
    trace.all (checkTriple digest) = true :=
  runTrace_spec digest reqs (Imt.new digest) (inv_new digest) trace hrun

/-- C1 witness: a concrete three-mutation run (two inserts and one
update, growing the depth to two) from a fresh tree produces trace0, and
every entry of trace0 round-trips through the verifier. -/
theorem c1_round_trip_witness :
    (Imt.new dig0).runTrace dig0 reqs0 = some trace0 ∧
      trace0.all (checkTriple dig0) = true :=
  ⟨by decide, c1_round_trip dig0 reqs0 trace0 (by decide)⟩

theorem perm_insertSorted (n : IMTNode) :
    ∀ (l : List IMTNode), List.Perm (insertSorted n l) (n :: l)
  | [] => List.Perm.refl [n]
  | m :: rest => by
      rw [insertSorted]
      by_cases hc : bytesLt n.key m.key = true
      · rw [if_pos hc]
      · rw [if_neg hc]
        exact List.Perm.trans (List.Perm.cons m (perm_insertSorted n rest))
          (List.Perm.swap n m rest)

theorem perm_sortByKey : ∀ (ns : List IMTNode), List.Perm (sortByKey ns) ns
  | [] => List.Perm.refl []
  | a :: ns => by
      show List.Perm (insertSorted a (sortByKey ns)) (a :: ns)
      exact List.Perm.trans (perm_insertSorted a (sortByKey ns))
        (List.Perm.cons a (perm_sortByKey ns))

theorem pairwise_insertSorted (n : IMTNode) :
    ∀ (l : List IMTNode),
    List.Pairwise (fun a b => bytesLt b.key a.key = false) l →
    List.Pairwise (fun a b => bytesLt b.key a.key = false) (insertSorted n l)
  | [], _ => by
      rw [insertSorted]
      exact List.pairwise_singleton _ n
  | m :: rest, h => by
      obtain ⟨hm, hrest⟩ := List.pairwise_cons.mp h
      rw [insertSorted]
      by_cases hc : bytesLt n.key m.key = true
      · rw [if_pos hc]
        refine List.pairwise_cons.mpr ⟨?_, h⟩
        intro x hx
        rcases List.mem_cons.mp hx with he | ht
        · rw [he]
          exact bytesLt_asymm n.key m.key hc
        · rcases Bool.eq_false_or_eq_true (bytesLt x.key n.key) with hcc | hcc
          · exfalso
            have := bytesLt_trans x.key n.key m.key hcc hc
            rw [hm x ht] at this
            cases this
          · exact hcc
      · rw [if_neg hc]
        refine List.pairwise_cons.mpr ⟨?_, pairwise_insertSorted n rest hrest⟩
        intro x hx
        have hx2 := (perm_insertSorted n rest).mem_iff.mp hx
        rcases List.mem_cons.mp hx2 with he | ht
        · rw [he]
          exact Bool.eq_false_iff.mpr hc
        · exact hm x ht

theorem pairwise_sortByKey : ∀ (ns : List IMTNode),
    List.Pairwise (fun a b => bytesLt b.key a.key = false) (sortByKey ns)
  | [] => List.Pairwise.nil
  | a :: ns => pairwise_insertSorted a (sortByKey ns) (pairwise_sortByKey ns)

theorem keysOf_cons (n : IMTNode) (l : List IMTNode) : keysOf (n :: l) = n.key :: keysOf l := rfl

theorem chain_aux (ns : List IMTNode) (hLL : LLInv ns) :
    ∀ (l : List IMTNode),
    (∀ x ∈ l, x ∈ ns) →
    List.Pairwise (fun a b => bytesLt b.key a.key = false) l →
    (keysOf l).Nodup →
    (∀ x ∈ l, ∀ m ∈ ns, bytesLt x.key m.key = true → m.key ∈ keysOf l) →
    chainOk l = true
  | [], _, _, _, _ => rfl
  | [x], hsub, _, _, hcl => by
      rcases hLL.2.2 x (hsub x (by simp)) with ⟨hz, -⟩ | ⟨h1, h2, h3⟩
      · simp [chainOk, hz]
      · exfalso
        obtain ⟨q, hq, hqk⟩ := (mem_keysOf ns x.next_key).mp h2
        have hmem : x.next_key ∈ keysOf [x] := by
          have hh := hcl x (by simp) q hq (by rw [hqk]; exact h1)
          rw [hqk] at hh
          exact hh
        simp [keysOf] at hmem
        rw [hmem, bytesLt_irrefl] at h1
        cases h1
  | x :: y :: rest, hsub, hpw, hnd, hcl => by
      have hxmem : x ∈ ns := hsub x (by simp)
      have hymem : y ∈ ns := hsub y (by simp)
      obtain ⟨hx_first, hpwtail⟩ := List.pairwise_cons.mp hpw
      have hxy_le : bytesLt y.key x.key = false := hx_first y (by simp)
      have hxy_ne : x.key ≠ y.key := by
        intro he
        rw [keysOf_cons] at hnd
        have hnohead := (List.nodup_cons.mp hnd).1
        apply hnohead
        rw [he, keysOf_cons]
        simp
      have hxy : bytesLt x.key y.key = true := by
        rcases bytesLt_trichotomy x.key y.key with h | h | h
        · exact h
        · rw [hxy_le] at h
          cases h
        · exact absurd h hxy_ne
      rcases hLL.2.2 x hxmem with ⟨-, hmax⟩ | ⟨h1, h2, h3⟩
      · rw [hmax y hymem] at hxy
        cases hxy
      · have hminy : bytesLt y.key x.next_key = false := h3 y hymem hxy
        obtain ⟨q, hq, hqk⟩ := (mem_keysOf ns x.next_key).mp h2
        have hsuccl : x.next_key ∈ keysOf (x :: y :: rest) := by
          have hh := hcl x (by simp) q hq (by rw [hqk]; exact h1)
          rw [hqk] at hh
          exact hh
        have hne_x : x.next_key ≠ x.key := by
          intro he
          rw [he, bytesLt_irrefl] at h1
          cases h1
        have hsucctail : x.next_key ∈ keysOf (y :: rest) := by
          rw [keysOf_cons] at hsuccl
          rcases List.mem_cons.mp hsuccl with he | ht
          · exact absurd he hne_x
          · exact ht
        have hge : ∀ z ∈ y :: rest, bytesLt z.key y.key = false := by
          intro z hz
          rcases List.mem_cons.mp hz with he | ht
          · rw [he]
            exact bytesLt_irrefl y.key
          · exact (List.pairwise_cons.mp hpwtail).1 z ht
        obtain ⟨z, hz, hzke⟩ := (mem_keysOf (y :: rest) x.next_key).mp hsucctail
        have hzge : bytesLt z.key y.key = false := hge z hz
        have heq : x.next_key = y.key := by
          rcases bytesLt_trichotomy x.next_key y.key with h | h | h
          · rw [← hzke, hzge] at h
            cases h
          · rw [hminy] at h
            cases h
          · exact h
        have hrec : chainOk (y :: rest) = true := by
          refine chain_aux ns hLL (y :: rest) ?_ hpwtail ?_ ?_
          · intro a ha
            exact hsub a (by simp [ha])
          · rw [keysOf_cons] at hnd
            exact (List.nodup_cons.mp hnd).2
          · intro a ha m hm hgt
            have hmem := hcl a (by simp [ha]) m hm hgt
            rw [keysOf_cons] at hmem
            rcases List.mem_cons.mp hmem with he | ht
            · exfalso
              have hxa : bytesLt x.key a.key = true := by
                have haa := hge a ha
                rcases bytesLt_trichotomy a.key y.key with hh | hh | hh
                · rw [haa] at hh
                  cases hh
                · exact bytesLt_trans x.key y.key a.key hxy hh
                · rw [← hh] at hxy
                  exact hxy
              rw [he] at hgt
              have := bytesLt_trans x.key a.key x.key hxa hgt
              rw [bytesLt_irrefl] at this
              cases this
            · exact ht
        show (x.next_key == y.key && chainOk (y :: rest)) = true
        rw [hrec, heq]
        simp

theorem refresh_tree_shape (d : List Nat → List Nat) (t : Imt) (k : Key) (t2 : Imt)
    (s : List (Option Hash)) (h : t.refresh_tree d k = some (t2, s)) :
    t2.size = t.size ∧ t2.depth = t.depth ∧ t2.nodes = t.nodes := by
  rw [Imt.refresh_tree] at h
  cases hf : t.nodes.find? (fun n => n.key == k) with
  | none =>
      rw [hf] at h
      cases h
  | some n =>
      rw [hf] at h
      injection h with hp
      have h1 := congrArg Prod.fst hp
      dsimp only at h1
      rw [← h1]
      exact ⟨rfl, rfl, rfl⟩

theorem insert_node_shape (d : List Nat → List Nat) (t : Imt) (k : Key) (v : Value)
    (tf : Imt) (w : IMTInsert) (h : t.insert_node d k v = some (tf, w)) :
    tf.size = t.size + 1 ∧ tf.depth = depthFor (t.size + 1) ∧
      ∃ ln, t.low_nullifier k = some ln ∧
        tf.nodes = t.nodes.map (updNext k ln.key) ++
          [{ index := t.size, key := k, value := v, next_key := ln.next_key }] := by
  rw [Imt.insert_node] at h
  by_cases hdup : t.nodes.any (fun n => n.key == k)
  · rw [if_pos hdup] at h
    cases h
  · rw [if_neg hdup] at h
    cases hlow : t.low_nullifier k with
    | none =>
        simp only [hlow] at h
        exact Option.noConfusion h
    | some ln =>
        simp only [hlow] at h
        cases hsib : t.siblings ln.key with
        | none =>
            simp only [hsib] at h
            exact Option.noConfusion h
        | some sibs =>
            simp only [hsib] at h
            cases hrt1 : Imt.refresh_tree d { t with nodes := t.nodes.map (updNext k ln.key) }
                ln.key with
            | none =>
                simp only [hrt1] at h
                exact Option.noConfusion h
            | some p1 =>
                obtain ⟨tA, sA⟩ := p1
                simp only [hrt1] at h
                obtain ⟨hsA, hdA, hnA⟩ := refresh_tree_shape d _ ln.key tA sA hrt1
                dsimp only at hsA hdA hnA
                simp only [refresh_depth_eq, hsA, hdA, hnA] at h
                cases hrt2 : Imt.refresh_tree d
                    { root := tA.root, size := t.size + 1, depth := depthFor (t.size + 1),
                      nodes := List.map (updNext k ln.key) t.nodes ++
                        [{ index := t.size, key := k, value := v, next_key := ln.next_key }],
                      hashes := tA.hashes } k with
                | none =>
                    simp only [hrt2] at h
                    exact Option.noConfusion h
                | some p2 =>
                    obtain ⟨tB, sB⟩ := p2
                    simp only [hrt2] at h
                    obtain ⟨hsB, hdB, hnB⟩ := refresh_tree_shape d _ k tB sB hrt2
                    dsimp only at hsB hdB hnB
                    cases hs2 : tB.siblings ln.key with
                    | none =>
                        simp only [hs2] at h
                        exact Option.noConfusion h
                    | some us =>
                        simp only [hs2] at h
                        injection h with hp
                        have h1 := congrArg Prod.fst hp
                        dsimp only at h1
                        rw [← h1]
                        exact ⟨hsB, hdB, ln, rfl, hnB⟩

theorem chainOk_of_llinv (ns : List IMTNode) (hLL : LLInv ns) (hnd : (keysOf ns).Nodup) :
    chainOk (sortByKey ns) = true := by
  have hperm := perm_sortByKey ns
  have hkperm : List.Perm (keysOf (sortByKey ns)) (keysOf ns) := by
    show List.Perm ((sortByKey ns).map (fun n => n.key)) (ns.map (fun n => n.key))
    exact hperm.map (fun n => n.key)
  refine chain_aux ns hLL (sortByKey ns) ?_ (pairwise_sortByKey ns) ?_ ?_
  · intro x hx
    exact hperm.mem_iff.mp hx
  · exact hkperm.nodup_iff.mpr hnd
  · intro x _ m hm _
    exact hkperm.mem_iff.mpr ((mem_keysOf ns m.key).mpr ⟨m, hm, rfl⟩)

theorem runInserts_inv (d : List Nat → List Nat) :
    ∀ (kvs : List (Key × Value)) (t : Imt), Inv d t →
    ∀ tf, t.runInserts d kvs = some tf → Inv d tf
  | [], t, hI, tf, h => by
      simp only [Imt.runInserts] at h
      injection h with h1
      rw [← h1]
      exact hI
  | kv :: rest, t, hI, tf, h => by
      simp only [Imt.runInserts] at h
      cases hins : t.insert_node d kv.1 kv.2 with
      | none =>
          rw [hins] at h
          cases h
      | some p =>
          obtain ⟨t2, w⟩ := p
          rw [hins] at h
          exact runInserts_inv d rest t2 (insert_node_spec d t kv.1 kv.2 hI t2 w hins).1 tf h

/-- C5: after inserting any list of keys into a fresh tree, in any order,
sorting the stored nodes by ascending key (the zero node first) yields a
chain in which every next_key is the key of the following node and the
last next_key is the zero key; and each single insert rewrites the low
nullifier's next_key to the new key while the new node receives the low
nullifier's previous next_key. -/
theorem c5_linked_list_order (digest : List Nat → List Nat) :
    (∀ (kvs : List (Key × Value)) (t : Imt),
        (Imt.new digest).runInserts digest kvs = some t →
        chainOk (sortByKey t.nodes) = true) ∧
    (∀ (t : Imt) (k : Key) (v : Value) (tf : Imt) (w : IMTInsert) (ln : IMTNode),
        t.insert_node digest k v = some (tf, w) →
        t.low_nullifier k = some ln →
        tf.nodes = t.nodes.map (updNext k ln.key) ++
          [{ index := t.size, key := k, value := v, next_key := ln.next_key }]) := by
  constructor
  · intro kvs t hrun
    have hI := runInserts_inv digest kvs (Imt.new digest) (inv_new digest) t hrun
    exact chainOk_of_llinv t.nodes hI.ll hI.keys_nodup
  · intro t k v tf w ln hins hlow
    obtain ⟨-, -, ln2, hlow2, hnodes⟩ := insert_node_shape digest t k v tf w hins
    rw [hlow] at hlow2
    injection hlow2 with he
    rw [he]
    exact hnodes

theorem c5_linked_list_order_witness :
    chainOk (sortByKey tC5.nodes) = true ∧
      tC5a.nodes = (Imt.new dig0).nodes.map (updNext key2 initNode.key) ++
        [{ index := (Imt.new dig0).size, key := key2, value := val1,
           next_key := initNode.next_key }] :=
  ⟨(c5_linked_list_order dig0).1 kvsC5 tC5 rfl,
   (c5_linked_list_order dig0).2 (Imt.new dig0) key2 val1 tC5a wC5a initNode rfl rfl⟩

theorem depthFor_pow (j : Nat) : depthFor (2 ^ j) = j := by
  have hp : 1 ≤ 2 ^ j := Nat.one_le_two_pow
  have h1 : depthFor (2 ^ j) ≤ j := depthFor_min (2 ^ j) j hp (le_refl _)
  have h2 : 2 ^ j ≤ 2 ^ depthFor (2 ^ j) := size_le_pow_depthFor _ hp
  have h3 : j ≤ depthFor (2 ^ j) := (Nat.pow_le_pow_iff_right (by omega)).mp h2
  omega

theorem depthFor_pow_succ (j : Nat) : depthFor (2 ^ j + 1) = j + 1 := by
  have hp : 1 ≤ 2 ^ j := Nat.one_le_two_pow
  have hle : depthFor (2 ^ j + 1) ≤ j + 1 := by
    refine depthFor_min _ _ (by omega) ?_
    have : (2 : Nat) ^ (j + 1) = 2 * 2 ^ j := by ring
    omega
  have h2 : 2 ^ j + 1 ≤ 2 ^ depthFor (2 ^ j + 1) := size_le_pow_depthFor _ (by omega)
  have h3 : ¬ depthFor (2 ^ j + 1) ≤ j := by
    intro hc
    have := Nat.pow_le_pow_right (show 1 ≤ 2 by omega) hc
    omega
  omega

theorem depthFor_succ_of_not_pow (n : Nat) (hn : 1 ≤ n) (hnp : ∀ j, n ≠ 2 ^ j) :
    depthFor (n + 1) = depthFor n := by
  have h2 : n < 2 ^ depthFor n := depthFor_lt_of_not_pow n hn hnp
  have h1 : depthFor n ≤ depthFor (n + 1) := by
    refine depthFor_min n _ hn ?_
    have := size_le_pow_depthFor (n + 1) (by omega)
    omega
  have h3 : depthFor (n + 1) ≤ depthFor n := depthFor_min (n + 1) _ (by omega) (by omega)
  omega

/-- C7: refresh_depth stores the smallest depth d with two to the d at
least the size (equal to the most-significant-bit position b exactly for
powers of two and b plus one otherwise), and consequently an insert
raises the depth by exactly one when it brings the size to a power of
two plus one, leaves it unchanged otherwise, and never lowers it. -/
theorem c7_depth_growth (digest : List Nat → List Nat) (t tf : Imt) (k : Key) (v : Value)
    (w : IMTInsert) :
    (1 ≤ t.size →
      t.size ≤ 2 ^ t.refresh_depth.depth ∧
        ∀ e, t.size ≤ 2 ^ e → t.refresh_depth.depth ≤ e) ∧
    (t.depth = depthFor t.size → 1 ≤ t.size →
      t.insert_node digest k v = some (tf, w) →
      tf.size = t.size + 1 ∧
        ((∃ j, tf.size = 2 ^ j + 1) → tf.depth = t.depth + 1) ∧
        (¬ (∃ j, tf.size = 2 ^ j + 1) → tf.depth = t.depth) ∧
        t.depth ≤ tf.depth) := by
  constructor
  · intro hs
    rw [refresh_depth_eq]
    exact ⟨size_le_pow_depthFor t.size hs, fun e he => depthFor_min t.size e hs he⟩
  · intro hd hs hins
    obtain ⟨hsize, hdepth, -⟩ := insert_node_shape digest t k v tf w hins
    refine ⟨hsize, ?_, ?_, ?_⟩
    · rintro ⟨j, hj⟩
      rw [hsize] at hj
      have hts : t.size = 2 ^ j := by omega
      rw [hdepth, hd, hts, depthFor_pow_succ, depthFor_pow]
    · intro hnp
      have hnp2 : ∀ j, t.size ≠ 2 ^ j := by
        intro j hj
        exact hnp ⟨j, by omega⟩
      rw [hdepth, hd]
      exact depthFor_succ_of_not_pow t.size hs hnp2
    · by_cases hcase : ∃ j, t.size = 2 ^ j
      · obtain ⟨j, hj⟩ := hcase
        rw [hdepth, hd, hj, depthFor_pow, depthFor_pow_succ]
        omega
      · have hnp2 : ∀ j, t.size ≠ 2 ^ j := fun j hj => hcase ⟨j, hj⟩
        rw [hdepth, hd, depthFor_succ_of_not_pow t.size hs hnp2]

theorem c7_depth_growth_witness :
    tC5a.size ≤ 2 ^ tC5a.refresh_depth.depth ∧
      tC5a.refresh_depth.depth ≤ 1 ∧
      tC7.size = tC5a.size + 1 ∧ tC7.depth = tC5a.depth + 1 ∧ tC5a.depth ≤ tC7.depth :=
  ⟨((c7_depth_growth dig0 tC5a tC7 key1 val1 wC7).1 (by decide)).1,
   ((c7_depth_growth dig0 tC5a tC7 key1 val1 wC7).1 (by decide)).2 1 (by decide),
   ((c7_depth_growth dig0 tC5a tC7 key1 val1 wC7).2 (by decide) (by decide) rfl).1,
   ((c7_depth_growth dig0 tC5a tC7 key1 val1 wC7).2 (by decide) (by decide) rfl).2.1
     ⟨1, by decide⟩,
   ((c7_depth_growth dig0 tC5a tC7 key1 val1 wC7).2 (by decide) (by decide) rfl).2.2.2⟩
